import Mathlib

/-!
Verification of the change-detection pipeline of `scraping-release.py`.

The development shallowly embeds the program's pure core:

* the per-line comparison-key reduction `extract_readable_text`
  (tag stripping, whitespace collapsing, trimming);
* Python's `difflib.SequenceMatcher` exactly as the program invokes it
  (`SequenceMatcher(None, old, new)`, i.e. `isjunk = None`, `autojunk = True`),
  including the `b2j` popularity purge, the `find_longest_match` dynamic
  programming loop, the two non-junk extension loops, the matching-block
  queue recursion, block sorting/merging and `get_opcodes`;
* the highlighter `highlight_html_diff` with its escaping rules;
* `sanitize_filename`, `get_page_content_with_selenium`'s retry loop,
  `compute_image_hashes`, and the per-target orchestration logic of `main`.

Text is modelled as `List Char`.  External collaborators (Selenium fetches,
`requests` byte fetches, PIL decoding, MD5, wall-clock time and the
BeautifulSoup parse) are passed in as explicit oracle parameters; everything
the repository itself computes is embedded from the source.
-/

namespace Scrape

/-- The characters Python's `\s` matches in the ASCII range (the regexes in
`extract_readable_text` are applied to page text; the embedding covers the
ASCII whitespace class). -/
def isSpaceChar (c : Char) : Bool :=
  c = ' ' || c = '\t' || c = '\n' || c = '\r' ||
    c = Char.ofNat 11 || c = Char.ofNat 12

/-- Python `str.replace` with a single-character needle: each occurrence of
`needle` is replaced by `repl`.  Used to embed
`line.replace("<", "&lt;").replace(">", "&gt;")`. -/
def replaceChar (needle : Char) (repl : List Char) (s : List Char) : List Char :=
  s.flatMap fun c => if c = needle then repl else [c]

/-- The highlighter's escaping step:
`line.replace("<", "&lt;").replace(">", "&gt;")`. -/
def escapeHtml (s : List Char) : List Char :=
  replaceChar '>' "&gt;".toList (replaceChar '<' "&lt;".toList s)

/-- Scanner state machine for `re.sub(r"<.*?>", "", line)`.  `.` does not
match a newline, so a candidate tag starting at a `<` ends at the first
later `>` with no newline in between; if none exists the scanned characters
are kept verbatim.  `buf` holds (reversed) the characters scanned since the
first pending `<`; a `>` discards them (the regex consumes from the first
`<` to the first `>`), a newline or the end of input flushes them. -/
def removeTagScan : Option (List Char) → List Char → List Char
  | none, [] => []
  | some buf, [] => buf.reverse
  | none, c :: rest =>
    if c = '<' then removeTagScan (some [c]) rest
    else c :: removeTagScan none rest
  | some buf, c :: rest =>
    if c = '>' then removeTagScan none rest
    else if c = '\n' then buf.reverse ++ c :: removeTagScan none rest
    else removeTagScan (some (c :: buf)) rest

/-- `re.sub(r"<.*?>", "", line)`. -/
def removeTagLike (s : List Char) : List Char :=
  removeTagScan none s

/-- Scanner for `re.sub(r"\s+", " ", tmp)`: a whitespace character opens a
run replaced by a single space; `prevSpace` records whether the run is
already open. -/
def collapseScan : Bool → List Char → List Char
  | _, [] => []
  | prevSpace, c :: rest =>
    if isSpaceChar c then
      if prevSpace then collapseScan true rest
      else ' ' :: collapseScan true rest
    else c :: collapseScan false rest

/-- `re.sub(r"\s+", " ", tmp)`: collapse each maximal run of whitespace to
a single space. -/
def collapseSpaces (s : List Char) : List Char :=
  collapseScan false s

/-- Python `str.strip()`. -/
def pyStrip (s : List Char) : List Char :=
  ((s.dropWhile isSpaceChar).reverse.dropWhile isSpaceChar).reverse

/-- `extract_readable_text` from `highlight_html_diff`: strip tag-like
substrings, collapse whitespace runs, trim. -/
def extractReadableText (line : List Char) : List Char :=
  pyStrip (collapseSpaces (removeTagLike line))

/-- Scanner for `str.splitlines(keepends=True)`: `cur` holds (reversed)
the characters of the current line; a boundary (`\n`, `\r\n` or `\r`, the
boundaries occurring in the program's inputs) closes the line with its
terminator kept, and a trailing segment without terminator is its own
line. -/
def splitLinesScan : List Char → List Char → List (List Char)
  | cur, [] => if cur = [] then [] else [cur.reverse]
  | cur, '\n' :: rest => (cur.reverse ++ ['\n']) :: splitLinesScan [] rest
  | cur, '\r' :: '\n' :: rest =>
    (cur.reverse ++ ['\r', '\n']) :: splitLinesScan [] rest
  | cur, '\r' :: rest => (cur.reverse ++ ['\r']) :: splitLinesScan [] rest
  | cur, c :: rest => splitLinesScan (c :: cur) rest

/-- Python `str.splitlines(keepends=True)` over the recognised boundaries. -/
def splitLinesKeep (s : List Char) : List (List Char) :=
  splitLinesScan [] s

/-- `sanitize_filename`: `re.sub(r'[\\/:*?"<>|]', "_", name)` — the character
class is a set of single characters, so the substitution is a per-character
map. -/
def sanitizeChar (c : Char) : Char :=
  if c = '\\' || c = '/' || c = ':' || c = '*' || c = '?' ||
      c = '"' || c = '<' || c = '>' || c = '|' then '_' else c

/-- `sanitize_filename(name)`. -/
def sanitizeFilename (name : List Char) : List Char :=
  name.map sanitizeChar

/-!
## `difflib.SequenceMatcher`

The program calls `difflib.SequenceMatcher(None, old_text_only,
new_text_only).get_opcodes()`.  The embedding below follows CPython's
`difflib.py` specialised to that call: `isjunk = None` (so `self.bjunk` is
empty, the junk-extension loops of `find_longest_match` never fire and
`not isbjunk(...)` is always true) and `autojunk = True` (so `__chain_b`
purges "popular" elements from `b2j` when `len(b) >= 200`).
-/

namespace Difflib

variable {α : Type} [DecidableEq α]

/-- `__chain_b`'s popularity threshold `ntest = n // 100 + 1`. -/
def ntest (n : Nat) : Nat := n / 100 + 1

/-- `autojunk`: an element of `b` is popular (and purged from `b2j`) when
`len(b) >= 200` and it occurs more than `ntest` times. -/
def isPopular (b : List α) (x : α) : Bool :=
  decide (200 ≤ b.length) && decide (ntest b.length < b.count x)

/-- `self.b2j[x]`: the ascending list of positions of `x` in `b` (built by
`__chain_b`'s enumeration), with popular elements purged; an absent key is
the empty list (`b2j.get(a[i], nothing)`). -/
def b2j (b : List α) (x : α) : List Nat :=
  if isPopular b x then []
  else (List.range b.length).filter fun j => decide (b[j]? = some x)

/-- The running state of `find_longest_match`'s dynamic-programming loop:
the current row `j2len` (a total function, absent keys being `0`, which
matches `j2len.get(j-1, 0)`) and the best block found so far. -/
structure FlmState where
  j2len : Nat → Nat
  besti : Nat
  bestj : Nat
  bestsize : Nat

/-- Body of the inner `for j in b2j...` loop of `find_longest_match`:
`k = newj2len[j] = j2lenget(j-1, 0) + 1` reads the *previous* row `old`
(key `-1` is never present, hence the `j = 0` guard), and the best block
becomes `(i-k+1, j-k+1, k)` when `k > bestsize`. -/
def innerStep (i : Nat) (old : Nat → Nat) (st : FlmState) (j : Nat) : FlmState :=
  let k := (if j = 0 then 0 else old (j - 1)) + 1
  let st' : FlmState :=
    { st with j2len := fun x => if x = j then k else st.j2len x }
  if st.bestsize < k then
    { st' with besti := i + 1 - k, bestj := j + 1 - k, bestsize := k }
  else st'

/-- One iteration (index `i`) of the outer loop of `find_longest_match`:
`newj2len` starts empty, and the inner loop runs over `b2j.get(a[i], [])`
with `if j < blo: continue` and `if j >= bhi: break` — the index list is
ascending, so the break amounts to a filter. -/
def outerStep (a b : List α) (blo bhi : Nat) (st : FlmState) (i : Nat) : FlmState :=
  match a[i]? with
  | none => { st with j2len := fun _ => 0 }
  | some ai =>
    ((b2j b ai).filter fun j => decide (blo ≤ j ∧ j < bhi)).foldl
      (innerStep i st.j2len) { st with j2len := fun _ => 0 }

/-- The dynamic-programming phase of `find_longest_match` over
`i in range(alo, ahi)`, starting from `besti, bestj, bestsize = alo, blo, 0`. -/
def flmCore (a b : List α) (alo ahi blo bhi : Nat) : FlmState :=
  (List.range' alo (ahi - alo)).foldl (outerStep a b blo bhi)
    ⟨fun _ => 0, alo, blo, 0⟩

/-- `a[i] == b[j]`, with both indices required to be in range. -/
def matchAt (a b : List α) (i j : Nat) : Bool :=
  match a[i]?, b[j]? with
  | some x, some y => decide (x = y)
  | _, _ => false

/-- First extension loop of `find_longest_match`: grow the best block
downwards while the preceding elements match (`isjunk = None`, so the
`not isbjunk(...)` conjunct is always true and the later junk-extension
loops never fire).  The loop decrements `besti` while `alo < besti`, so
it runs at most `besti - alo` times; `extendHead` passes exactly that
fuel, and when the fuel reaches 0 the guard `alo < besti` is false, so
the fuel-exhausted return coincides with the loop exit. -/
def extendHeadGo (a b : List α) (alo blo : Nat) :
    Nat → Nat → Nat → Nat → Nat × Nat × Nat
  | 0, besti, bestj, bestsize => (besti, bestj, bestsize)
  | fuel + 1, besti, bestj, bestsize =>
    if alo < besti ∧ blo < bestj ∧ matchAt a b (besti - 1) (bestj - 1) then
      extendHeadGo a b alo blo fuel (besti - 1) (bestj - 1) (bestsize + 1)
    else (besti, bestj, bestsize)

/-- The first `while` loop of `find_longest_match`. -/
def extendHead (a b : List α) (alo blo besti bestj bestsize : Nat) :
    Nat × Nat × Nat :=
  extendHeadGo a b alo blo (besti - alo) besti bestj bestsize

/-- Second extension loop of `find_longest_match`: grow the best block
upwards while the following elements match.  The loop increments
`bestsize` while `besti + bestsize < ahi`, so it runs at most
`ahi - (besti + bestsize)` times; `extendTail` passes exactly that fuel. -/
def extendTailGo (a b : List α) (ahi bhi besti bestj : Nat) :
    Nat → Nat → Nat
  | 0, bestsize => bestsize
  | fuel + 1, bestsize =>
    if besti + bestsize < ahi ∧ bestj + bestsize < bhi ∧
        matchAt a b (besti + bestsize) (bestj + bestsize) then
      extendTailGo a b ahi bhi besti bestj fuel (bestsize + 1)
    else bestsize

/-- The second `while` loop of `find_longest_match`. -/
def extendTail (a b : List α) (ahi bhi besti bestj bestsize : Nat) : Nat :=
  extendTailGo a b ahi bhi besti bestj (ahi - (besti + bestsize)) bestsize

/-- `find_longest_match(alo, ahi, blo, bhi)` with `isjunk = None`. -/
def findLongestMatch (a b : List α) (alo ahi blo bhi : Nat) : Nat × Nat × Nat :=
  let st := flmCore a b alo ahi blo bhi
  let p := extendHead a b alo blo st.besti st.bestj st.bestsize
  (p.1, p.2.1, extendTail a b ahi bhi p.1 p.2.1 p.2.2)

/-- A matching block `(i, j, size)`. -/
abbrev Block := Nat × Nat × Nat

/-- A pending `(alo, ahi, blo, bhi)` region of `get_matching_blocks`. -/
abbrev Region := Nat × Nat × Nat × Nat

/-- Termination measure contribution of one queued region. -/
def regionWeight (r : Region) : Nat := 2 * (r.2.1 - r.1) + 1

/-- Invariant of the dynamic-programming loop after `cnt` outer
iterations: row values are bounded by the number of processed indices and
by the room above `blo`, and the best block lies inside the window. -/
def CoreInv (alo blo bhi cnt : Nat) (st : FlmState) : Prop :=
  (∀ x, st.j2len x ≤ cnt) ∧
  (∀ x, st.j2len x + blo ≤ x + 1 ∨ st.j2len x = 0) ∧
  alo ≤ st.besti ∧
  st.besti + st.bestsize ≤ alo + cnt ∧
  st.bestsize ≤ cnt ∧
  blo ≤ st.bestj ∧
  (1 ≤ st.bestsize → st.bestj + st.bestsize ≤ bhi) ∧
  (st.bestsize = 0 → st.besti = alo ∧ st.bestj = blo)

theorem foldl_inv {σ β : Type} (f : σ → β → σ) (l : List β) (I : σ → Prop)
    (hstep : ∀ s x, x ∈ l → I s → I (f s x)) :
    ∀ s0, I s0 → I (l.foldl f s0) := by
  induction l with
  | nil => intro s0 h0; exact h0
  | cons x xs ih =>
    intro s0 h0
    exact ih (fun s y hy => hstep s y (List.mem_cons_of_mem x hy))
      (f s0 x) (hstep s0 x (List.mem_cons_self x xs) h0)

theorem foldl_range'_inv {σ : Type} (f : σ → Nat → σ) (alo : Nat)
    (I : Nat → σ → Prop)
    (hstep : ∀ cnt s, I cnt s → I (cnt + 1) (f s (alo + cnt))) :
    ∀ n s0, I 0 s0 → I n ((List.range' alo n).foldl f s0) := by
  intro n
  induction n with
  | zero => intro s0 h0; exact h0
  | succ m ih =>
    intro s0 h0
    have hr : List.range' alo (m + 1) = List.range' alo m ++ [alo + m] := by
      simpa using (List.range'_concat alo m :
        List.range' alo (m + 1) 1 = List.range' alo m 1 ++ [alo + 1 * m])
    rw [hr, List.foldl_append]
    exact hstep m _ (ih s0 h0)

theorem innerStep_inv {alo blo bhi cnt i : Nat} {old : Nat → Nat}
    {st : FlmState}
    (hold1 : ∀ x, old x ≤ cnt) (hold2 : ∀ x, old x + blo ≤ x + 1 ∨ old x = 0)
    (hi : i = alo + cnt) {j : Nat} (hj1 : blo ≤ j) (hj2 : j < bhi)
    (h : CoreInv alo blo bhi (cnt + 1) st) :
    CoreInv alo blo bhi (cnt + 1) (innerStep i old st j) := by
  subst hi
  obtain ⟨h1, h2, h3, h4, h5, h6, h7, h8⟩ := h
  unfold innerStep
  set k := (if j = 0 then 0 else old (j - 1)) + 1 with hkdef
  have hk0 : 1 ≤ k := by rw [hkdef]; omega
  have hk1 : k ≤ cnt + 1 := by
    rw [hkdef]; split_ifs with hj0
    · omega
    · have := hold1 (j - 1); omega
  have hk2 : k + blo ≤ j + 1 := by
    rw [hkdef]; split_ifs with hj0
    · omega
    · rcases hold2 (j - 1) with hh | hh <;> omega
  by_cases hbs : st.bestsize < k
  · rw [if_pos hbs]
    refine ⟨?_, ?_, ?_, ?_, ?_, ?_, ?_, ?_⟩
    · intro x; dsimp only
      by_cases hx : x = j
      · rw [if_pos hx]; omega
      · rw [if_neg hx]; exact h1 x
    · intro x; dsimp only
      by_cases hx : x = j
      · rw [if_pos hx]; left; omega
      · rw [if_neg hx]; exact h2 x
    · dsimp only; omega
    · dsimp only; omega
    · dsimp only; omega
    · dsimp only; omega
    · dsimp only; intro hone; omega
    · dsimp only; intro hz; omega
  · rw [if_neg hbs]
    refine ⟨?_, ?_, h3, h4, h5, h6, h7, h8⟩
    · intro x; dsimp only
      by_cases hx : x = j
      · rw [if_pos hx]; omega
      · rw [if_neg hx]; exact h1 x
    · intro x; dsimp only
      by_cases hx : x = j
      · rw [if_pos hx]; left; omega
      · rw [if_neg hx]; exact h2 x

theorem outerStep_inv (a b : List α) {alo blo bhi cnt : Nat} {st : FlmState}
    (h : CoreInv alo blo bhi cnt st) :
    CoreInv alo blo bhi (cnt + 1) (outerStep a b blo bhi st (alo + cnt)) := by
  obtain ⟨h1, h2, h3, h4, h5, h6, h7, h8⟩ := h
  have hzero : CoreInv alo blo bhi (cnt + 1)
      { st with j2len := fun _ => 0 } :=
    ⟨fun _ => by dsimp only; omega, fun x => Or.inr rfl, h3,
      by dsimp only; omega, by dsimp only; omega, h6, h7, h8⟩
  unfold outerStep
  cases ha : (a[alo + cnt]? : Option α) with
  | none => exact hzero
  | some ai =>
    refine foldl_inv _ _ _ ?_ _ hzero
    intro s j hj hs
    have hj' : blo ≤ j ∧ j < bhi := by
      have := (List.mem_filter.mp hj).2
      simpa using this
    exact innerStep_inv h1 h2 rfl hj'.1 hj'.2 hs

theorem flmCore_inv (a b : List α) (alo ahi blo bhi : Nat) :
    CoreInv alo blo bhi (ahi - alo) (flmCore a b alo ahi blo bhi) := by
  unfold flmCore
  refine foldl_range'_inv _ _ (CoreInv alo blo bhi)
    (fun cnt s hs => outerStep_inv a b hs) _ _ ?_
  refine ⟨fun _ => Nat.le_refl 0, fun _ => Or.inr rfl, ?_, ?_, ?_, ?_, ?_, ?_⟩ <;>
    dsimp only <;> omega

theorem extendHeadGo_spec (a b : List α) (alo blo : Nat) :
    ∀ fuel besti bestj bestsize, alo ≤ besti → blo ≤ bestj →
      alo ≤ (extendHeadGo a b alo blo fuel besti bestj bestsize).1 ∧
      blo ≤ (extendHeadGo a b alo blo fuel besti bestj bestsize).2.1 ∧
      (extendHeadGo a b alo blo fuel besti bestj bestsize).1 +
        (extendHeadGo a b alo blo fuel besti bestj bestsize).2.2 =
          besti + bestsize ∧
      (extendHeadGo a b alo blo fuel besti bestj bestsize).2.1 +
        (extendHeadGo a b alo blo fuel besti bestj bestsize).2.2 =
          bestj + bestsize ∧
      bestsize ≤ (extendHeadGo a b alo blo fuel besti bestj bestsize).2.2 := by
  intro fuel
  induction fuel with
  | zero =>
    intro besti bestj bestsize h1 h2
    exact ⟨h1, h2, rfl, rfl, Nat.le_refl _⟩
  | succ n ih =>
    intro besti bestj bestsize h1 h2
    rw [extendHeadGo]
    split_ifs with hc
    · obtain ⟨hc1, hc2, hc3⟩ := hc
      have := ih (besti - 1) (bestj - 1) (bestsize + 1) (by omega) (by omega)
      refine ⟨this.1, this.2.1, by omega, by omega, by omega⟩
    · exact ⟨h1, h2, rfl, rfl, Nat.le_refl _⟩

theorem extendHead_spec (a b : List α) (alo blo besti bestj bestsize : Nat)
    (h1 : alo ≤ besti) (h2 : blo ≤ bestj) :
    alo ≤ (extendHead a b alo blo besti bestj bestsize).1 ∧
    blo ≤ (extendHead a b alo blo besti bestj bestsize).2.1 ∧
    (extendHead a b alo blo besti bestj bestsize).1 +
      (extendHead a b alo blo besti bestj bestsize).2.2 =
        besti + bestsize ∧
    (extendHead a b alo blo besti bestj bestsize).2.1 +
      (extendHead a b alo blo besti bestj bestsize).2.2 =
        bestj + bestsize ∧
    bestsize ≤ (extendHead a b alo blo besti bestj bestsize).2.2 :=
  extendHeadGo_spec a b alo blo (besti - alo) besti bestj bestsize h1 h2

theorem extendTailGo_spec (a b : List α) (ahi bhi besti bestj : Nat) :
    ∀ fuel bestsize,
      bestsize ≤ extendTailGo a b ahi bhi besti bestj fuel bestsize ∧
      ((1 ≤ bestsize → besti + bestsize ≤ ahi ∧ bestj + bestsize ≤ bhi) →
        1 ≤ extendTailGo a b ahi bhi besti bestj fuel bestsize →
        besti + extendTailGo a b ahi bhi besti bestj fuel bestsize ≤ ahi ∧
          bestj + extendTailGo a b ahi bhi besti bestj fuel bestsize ≤ bhi) := by
  intro fuel
  induction fuel with
  | zero =>
    intro bestsize
    exact ⟨Nat.le_refl _, fun hin h1 => hin h1⟩
  | succ n ih =>
    intro bestsize
    rw [extendTailGo]
    split_ifs with hc
    · obtain ⟨hc1, hc2, hc3⟩ := hc
      have := ih (bestsize + 1)
      refine ⟨by omega, fun _ => this.2 (fun _ => ⟨by omega, by omega⟩)⟩
    · exact ⟨Nat.le_refl _, fun hin h1 => hin h1⟩

theorem extendTail_spec (a b : List α) (ahi bhi besti bestj bestsize : Nat) :
    bestsize ≤ extendTail a b ahi bhi besti bestj bestsize ∧
    ((1 ≤ bestsize → besti + bestsize ≤ ahi ∧ bestj + bestsize ≤ bhi) →
      1 ≤ extendTail a b ahi bhi besti bestj bestsize →
      besti + extendTail a b ahi bhi besti bestj bestsize ≤ ahi ∧
        bestj + extendTail a b ahi bhi besti bestj bestsize ≤ bhi) :=
  extendTailGo_spec a b ahi bhi besti bestj (ahi - (besti + bestsize)) bestsize

theorem flm_lower (a b : List α) (alo ahi blo bhi : Nat) :
    alo ≤ (findLongestMatch a b alo ahi blo bhi).1 ∧
    blo ≤ (findLongestMatch a b alo ahi blo bhi).2.1 ∧
    (1 ≤ (findLongestMatch a b alo ahi blo bhi).2.2 →
      (findLongestMatch a b alo ahi blo bhi).1 +
          (findLongestMatch a b alo ahi blo bhi).2.2 ≤ ahi ∧
        (findLongestMatch a b alo ahi blo bhi).2.1 +
          (findLongestMatch a b alo ahi blo bhi).2.2 ≤ bhi) := by
  obtain ⟨-, -, h3, h4, h5, h6, h7, h8⟩ := flmCore_inv a b alo ahi blo bhi
  set st := flmCore a b alo ahi blo bhi with hst
  obtain ⟨hp1, hp2, hp3, hp4, hp5⟩ :=
    extendHead_spec a b alo blo st.besti st.bestj st.bestsize h3 h6
  set p := extendHead a b alo blo st.besti st.bestj st.bestsize with hp
  have hfl : findLongestMatch a b alo ahi blo bhi =
      (p.1, p.2.1, extendTail a b ahi bhi p.1 p.2.1 p.2.2) := rfl
  have htail := extendTail_spec a b ahi bhi p.1 p.2.1 p.2.2
  have hin : 1 ≤ p.2.2 → p.1 + p.2.2 ≤ ahi ∧ p.2.1 + p.2.2 ≤ bhi := by
    intro hpk
    have hbs1 : 1 ≤ st.bestsize := by
      by_contra hzz
      have h0 : st.bestsize = 0 := by omega
      obtain ⟨he1, he2⟩ := h8 h0
      omega
    have hbhi := h7 hbs1
    omega
  rw [hfl]
  exact ⟨hp1, hp2, fun h1 => htail.2 hin h1⟩

/-- Match-truth invariant of the dynamic-programming loop after `cnt`
outer iterations: every positive row entry and the best block describe
runs of pairwise-equal elements. -/
def MatchInv (a b : List α) (alo cnt : Nat) (st : FlmState) : Prop :=
  (∀ x, st.j2len x ≤ cnt) ∧
  (∀ x, st.j2len x ≤ x + 1) ∧
  (∀ x t, t < st.j2len x → matchAt a b (alo + cnt - 1 - t) (x - t) = true) ∧
  (∀ t, t < st.bestsize → matchAt a b (st.besti + t) (st.bestj + t) = true)

theorem mem_b2j {b : List α} {x : α} {j : Nat} (h : j ∈ b2j b x) :
    b[j]? = some x := by
  unfold b2j at h
  split_ifs at h
  · cases h
  · have := (List.mem_filter.mp h).2
    simpa using this

theorem innerStep_match {a b : List α} {alo cnt : Nat} {old : Nat → Nat}
    {st : FlmState} {ai : α} {j : Nat}
    (hold1 : ∀ x, old x ≤ cnt) (hold2 : ∀ x, old x ≤ x + 1)
    (hold3 : ∀ x t, t < old x → matchAt a b (alo + cnt - 1 - t) (x - t) = true)
    (hai : a[alo + cnt]? = some ai) (hbj : b[j]? = some ai)
    (h : MatchInv a b alo (cnt + 1) st) :
    MatchInv a b alo (cnt + 1) (innerStep (alo + cnt) old st j) := by
  obtain ⟨h1, h2, h3, h4⟩ := h
  have hij : matchAt a b (alo + cnt) j = true := by
    unfold matchAt
    rw [hai, hbj]
    simp
  unfold innerStep
  set k := (if j = 0 then 0 else old (j - 1)) + 1 with hkdef
  have hk1 : k ≤ cnt + 1 := by
    rw [hkdef]; split_ifs with hj0
    · omega
    · have := hold1 (j - 1); omega
  have hk2 : k ≤ j + 1 := by
    rw [hkdef]; split_ifs with hj0
    · omega
    · have := hold2 (j - 1); omega
  have hkrun : ∀ t, t < k → matchAt a b (alo + cnt - t) (j - t) = true := by
    intro t ht
    rcases Nat.eq_zero_or_pos t with rfl | htpos
    · simpa using hij
    · have hj0 : ¬ j = 0 := by
        intro hj0
        rw [hkdef, if_pos hj0] at ht
        omega
      rw [hkdef, if_neg hj0] at ht
      have hto : t - 1 < old (j - 1) := by omega
      have := hold3 (j - 1) (t - 1) hto
      have hcnt1 : 1 ≤ cnt := by
        have := hold1 (j - 1); omega
      have e1 : alo + cnt - 1 - (t - 1) = alo + cnt - t := by omega
      have e2 : j - 1 - (t - 1) = j - t := by omega
      rwa [e1, e2] at this
  have hrow : ∀ x t,
      t < (if x = j then k else st.j2len x) →
      matchAt a b (alo + (cnt + 1) - 1 - t) (x - t) = true := by
    intro x t ht
    by_cases hx : x = j
    · subst hx
      rw [if_pos rfl] at ht
      have e : alo + (cnt + 1) - 1 - t = alo + cnt - t := by omega
      rw [e]
      exact hkrun t ht
    · rw [if_neg hx] at ht
      exact h3 x t ht
  by_cases hbs : st.bestsize < k
  · rw [if_pos hbs]
    refine ⟨?_, ?_, ?_, ?_⟩
    · intro x; dsimp only
      by_cases hx : x = j
      · rw [if_pos hx]; omega
      · rw [if_neg hx]; exact h1 x
    · intro x; dsimp only
      by_cases hx : x = j
      · rw [if_pos hx]; omega
      · rw [if_neg hx]; exact h2 x
    · intro x t ht
      exact hrow x t ht
    · dsimp only
      intro t ht
      have hki : k ≤ alo + cnt + 1 := by omega
      have e1 : alo + cnt + 1 - k + t = alo + cnt - (k - 1 - t) := by omega
      have e2 : j + 1 - k + t = j - (k - 1 - t) := by omega
      rw [e1, e2]
      exact hkrun (k - 1 - t) (by omega)
  · rw [if_neg hbs]
    exact ⟨fun x => by
        dsimp only
        by_cases hx : x = j
        · rw [if_pos hx]; omega
        · rw [if_neg hx]; exact h1 x,
      fun x => by
        dsimp only
        by_cases hx : x = j
        · rw [if_pos hx]; omega
        · rw [if_neg hx]; exact h2 x,
      fun x t ht => hrow x t ht, h4⟩

theorem outerStep_match (a b : List α) {alo blo bhi cnt : Nat} {st : FlmState}
    (h : MatchInv a b alo cnt st) :
    MatchInv a b alo (cnt + 1) (outerStep a b blo bhi st (alo + cnt)) := by
  obtain ⟨h1, h2, h3, h4⟩ := h
  have hzero : MatchInv a b alo (cnt + 1) { st with j2len := fun _ => 0 } :=
    ⟨fun _ => by dsimp only; omega, fun _ => by dsimp only; omega,
      fun x t ht => by dsimp only at ht; omega, h4⟩
  unfold outerStep
  cases ha : (a[alo + cnt]? : Option α) with
  | none => exact hzero
  | some ai =>
    refine foldl_inv _ _ _ ?_ _ hzero
    intro s j hj hs
    have hjb : b[j]? = some ai := mem_b2j (List.mem_filter.mp hj).1
    exact innerStep_match h1 h2 h3 ha hjb hs

theorem flmCore_match (a b : List α) (alo ahi blo bhi : Nat) :
    MatchInv a b alo (ahi - alo) (flmCore a b alo ahi blo bhi) := by
  unfold flmCore
  have h0 : MatchInv a b alo 0 (⟨fun _ => 0, alo, blo, 0⟩ : FlmState) :=
    ⟨fun _ => Nat.le_refl 0, fun _ => by dsimp only; omega,
      fun x t ht => by dsimp only at ht; omega,
      fun t ht => by dsimp only at ht; omega⟩
  exact foldl_range'_inv (outerStep a b blo bhi) alo
    (MatchInv a b alo) (fun cnt s hs => outerStep_match a b hs)
    (ahi - alo) _ h0

theorem extendHeadGo_match (a b : List α) (alo blo : Nat) :
    ∀ fuel besti bestj bestsize,
      (∀ t, t < bestsize → matchAt a b (besti + t) (bestj + t) = true) →
      ∀ t, t < (extendHeadGo a b alo blo fuel besti bestj bestsize).2.2 →
        matchAt a b ((extendHeadGo a b alo blo fuel besti bestj bestsize).1 + t)
          ((extendHeadGo a b alo blo fuel besti bestj bestsize).2.1 + t) =
            true := by
  intro fuel
  induction fuel with
  | zero => intro besti bestj bestsize h t ht; exact h t ht
  | succ n ih =>
    intro besti bestj bestsize h
    rw [extendHeadGo]
    split_ifs with hc
    · obtain ⟨hc1, hc2, hc3⟩ := hc
      refine ih (besti - 1) (bestj - 1) (bestsize + 1) ?_
      intro t ht
      rcases Nat.eq_zero_or_pos t with rfl | htpos
      · simpa using hc3
      · have e1 : besti - 1 + t = besti + (t - 1) := by omega
        have e2 : bestj - 1 + t = bestj + (t - 1) := by omega
        rw [e1, e2]
        exact h (t - 1) (by omega)
    · exact h

theorem extendTailGo_match (a b : List α) (ahi bhi besti bestj : Nat) :
    ∀ fuel bestsize,
      (∀ t, t < bestsize → matchAt a b (besti + t) (bestj + t) = true) →
      ∀ t, t < extendTailGo a b ahi bhi besti bestj fuel bestsize →
        matchAt a b (besti + t) (bestj + t) = true := by
  intro fuel
  induction fuel with
  | zero => intro bestsize h t ht; exact h t ht
  | succ n ih =>
    intro bestsize h
    rw [extendTailGo]
    split_ifs with hc
    · obtain ⟨hc1, hc2, hc3⟩ := hc
      refine ih (bestsize + 1) ?_
      intro t ht
      rcases Nat.lt_or_ge t bestsize with htl | htg
      · exact h t htl
      · have : t = bestsize := by omega
        subst this
        exact hc3
    · exact h

/-- Every block returned by `find_longest_match` is a run of
pairwise-equal elements. -/
theorem flm_match (a b : List α) (alo ahi blo bhi : Nat) :
    ∀ t, t < (findLongestMatch a b alo ahi blo bhi).2.2 →
      matchAt a b ((findLongestMatch a b alo ahi blo bhi).1 + t)
        ((findLongestMatch a b alo ahi blo bhi).2.1 + t) = true := by
  have hcore := flmCore_match a b alo ahi blo bhi
  set st := flmCore a b alo ahi blo bhi with hst
  have hhead := extendHeadGo_match a b alo blo (st.besti - alo) st.besti
    st.bestj st.bestsize hcore.2.2.2
  set p := extendHead a b alo blo st.besti st.bestj st.bestsize with hp
  have hfl : findLongestMatch a b alo ahi blo bhi =
      (p.1, p.2.1, extendTail a b ahi bhi p.1 p.2.1 p.2.2) := rfl
  rw [hfl]
  exact extendTailGo_match a b ahi bhi p.1 p.2.1
    (ahi - (p.1 + p.2.2)) p.2.2 hhead

/-- The `while queue` loop of `get_matching_blocks`: `queue.pop()` takes
the most recently pushed region, so the queue is modelled head-first; when
the match is non-empty the two sub-regions are pushed (the second one ends
up on top).  The collected blocks are sorted afterwards, so their
accumulation order is irrelevant.  Every iteration strictly decreases
`(queue.map regionWeight).sum` (`flm_lower` bounds the match inside its
region), so the fuel `2 * la + 1` passed by `getMatchingBlocks` — the
weight of the initial queue — is never exhausted before the queue
empties; the fuel-exhausted return coincides with the loop exit on an
empty queue. -/
def gmbGo (a b : List α) : Nat → List Region → List Block → List Block
  | _, [], acc => acc
  | 0, _ :: _, acc => acc
  | fuel + 1, (alo, ahi, blo, bhi) :: queue, acc =>
    match findLongestMatch a b alo ahi blo bhi with
    | (i, j, k) =>
      if k ≠ 0 then
        let q1 : List Region :=
          if alo < i ∧ blo < j then [(alo, i, blo, j)] else []
        let q2 : List Region :=
          if i + k < ahi ∧ j + k < bhi then [(i + k, ahi, j + k, bhi)] else []
        gmbGo a b fuel (q2 ++ q1 ++ queue) ((i, j, k) :: acc)
      else gmbGo a b fuel queue acc

/-- Python's default tuple ordering on `(i, j, size)` triples, as used by
`matching_blocks.sort()`. -/
def blockLE (x y : Block) : Bool :=
  decide (x.1 < y.1) ||
    (decide (x.1 = y.1) &&
      (decide (x.2.1 < y.2.1) ||
        (decide (x.2.1 = y.2.1) && decide (x.2.2 ≤ y.2.2))))

/-- Insert a block into an ascending list (stable). -/
def insertBlock (x : Block) : List Block → List Block
  | [] => [x]
  | y :: ys => if blockLE x y then x :: y :: ys else y :: insertBlock x ys

/-- `matching_blocks.sort()`: sort ascending by Python's default tuple
order.  (Insertion sort; the sorted permutation is unique up to equal
elements, which is all the merge loop below depends on.) -/
def sortBlocks : List Block → List Block
  | [] => []
  | x :: xs => insertBlock x (sortBlocks xs)

/-- The adjacent-block merge loop of `get_matching_blocks`: the running
block `(i1, j1, k1)` absorbs an adjacent next block, otherwise it is emitted
when non-empty.  The initial running block is `(0, 0, 0)`. -/
def collapseBlocks : Block → List Block → List Block
  | (i1, j1, k1), [] => if k1 ≠ 0 then [(i1, j1, k1)] else []
  | (i1, j1, k1), (i2, j2, k2) :: rest =>
    if i1 + k1 = i2 ∧ j1 + k1 = j2 then
      collapseBlocks (i1, j1, k1 + k2) rest
    else if k1 ≠ 0 then (i1, j1, k1) :: collapseBlocks (i2, j2, k2) rest
    else collapseBlocks (i2, j2, k2) rest

/-- `get_matching_blocks()`: run the queue loop from the full region, sort,
merge adjacent blocks and append the `(la, lb, 0)` terminator. -/
def getMatchingBlocks (a b : List α) : List Block :=
  collapseBlocks (0, 0, 0)
      (sortBlocks (gmbGo a b (2 * a.length + 1) [(0, a.length, 0, b.length)]
        [])) ++
    [(a.length, b.length, 0)]

/-- Opcode kinds, `'equal' / 'insert' / 'delete' / 'replace'`. -/
inductive Tag where
  | equal | insert | delete | replace
  deriving DecidableEq, Repr

/-- One `(tag, i1, i2, j1, j2)` opcode. -/
structure Opcode where
  tag : Tag
  i1 : Nat
  i2 : Nat
  j1 : Nat
  j2 : Nat
  deriving DecidableEq, Repr

/-- The block-to-opcode loop of `get_opcodes()`, with running cursors
`i, j`. -/
def opcodesLoop : Nat → Nat → List Block → List Opcode
  | _, _, [] => []
  | i, j, (ai, bj, size) :: rest =>
    let pre : List Opcode :=
      if i < ai ∧ j < bj then [⟨.replace, i, ai, j, bj⟩]
      else if i < ai then [⟨.delete, i, ai, j, bj⟩]
      else if j < bj then [⟨.insert, i, ai, j, bj⟩]
      else []
    let eqs : List Opcode :=
      if size ≠ 0 then [⟨.equal, ai, ai + size, bj, bj + size⟩] else []
    pre ++ eqs ++ opcodesLoop (ai + size) (bj + size) rest

/-- `SequenceMatcher(None, a, b).get_opcodes()`. -/
def getOpcodes (a b : List α) : List Opcode :=
  opcodesLoop 0 0 (getMatchingBlocks a b)

/-- A block is *true* when it covers only pairwise-equal positions. -/
def TrueBlock (a b : List α) (blk : Block) : Prop :=
  ∀ t, t < blk.2.2 → matchAt a b (blk.1 + t) (blk.2.1 + t) = true

theorem matchAt_eq {a b : List α} {i j : Nat} (h : matchAt a b i j = true) :
    a[i]? = b[j]? := by
  unfold matchAt at h
  cases ha : a[i]? <;> cases hb : b[j]? <;> rw [ha, hb] at h <;> simp_all

theorem gmbGo_true (a b : List α) :
    ∀ fuel queue acc, (∀ x ∈ acc, TrueBlock a b x) →
      ∀ x ∈ gmbGo a b fuel queue acc, TrueBlock a b x := by
  intro fuel
  induction fuel with
  | zero =>
    intro queue acc hacc
    cases queue with
    | nil => simpa [gmbGo] using hacc
    | cons r rest => simpa [gmbGo] using hacc
  | succ n ih =>
    intro queue acc hacc
    cases queue with
    | nil => simpa [gmbGo] using hacc
    | cons r rest =>
      obtain ⟨alo, ahi, blo, bhi⟩ := r
      have hmt := flm_match a b alo ahi blo bhi
      rw [gmbGo]
      rcases hm : findLongestMatch a b alo ahi blo bhi with ⟨i, j, k⟩
      rw [hm] at hmt
      dsimp only at hmt ⊢
      by_cases hk : k ≠ 0
      · rw [if_pos hk]
        refine ih _ _ ?_
        intro x hx
        rcases List.mem_cons.mp hx with rfl | hx2
        · exact fun t ht => hmt t ht
        · exact hacc x hx2
      · rw [if_neg hk]
        exact ih _ _ hacc

theorem mem_insertBlock {x y : Block} {l : List Block} :
    y ∈ insertBlock x l ↔ y = x ∨ y ∈ l := by
  induction l with
  | nil => simp [insertBlock]
  | cons z zs ih =>
    by_cases h : blockLE x z = true
    · simp [insertBlock, h]
    · simp only [insertBlock, if_neg h, List.mem_cons, ih]
      tauto

theorem mem_sortBlocks {x : Block} {l : List Block} :
    x ∈ sortBlocks l ↔ x ∈ l := by
  induction l with
  | nil => simp [sortBlocks]
  | cons z zs ih =>
    simp only [sortBlocks, mem_insertBlock, List.mem_cons, ih]

theorem collapseBlocks_true (a b : List α) :
    ∀ (l : List Block) (cur : Block), TrueBlock a b cur →
      (∀ x ∈ l, TrueBlock a b x) →
      ∀ x ∈ collapseBlocks cur l, TrueBlock a b x := by
  intro l
  induction l with
  | nil =>
    intro cur hc hl x hx
    obtain ⟨i1, j1, k1⟩ := cur
    simp only [collapseBlocks] at hx
    split_ifs at hx
    · rcases List.mem_singleton.mp hx with rfl
      exact hc
    · cases hx
  | cons blk rest ih =>
    intro cur hc hl x hx
    obtain ⟨i1, j1, k1⟩ := cur
    obtain ⟨i2, j2, k2⟩ := blk
    simp only [collapseBlocks] at hx
    split_ifs at hx with hadj hk1
    · refine ih (i1, j1, k1 + k2) ?_
        (fun y hy => hl y (List.mem_cons_of_mem _ hy)) x hx
      intro t ht
      dsimp only at ht ⊢
      rcases Nat.lt_or_ge t k1 with h | h
      · exact hc t h
      · have h2 := hl (i2, j2, k2) (List.mem_cons_self _ _)
        have hkk : t - k1 < k2 := by omega
        have := h2 (t - k1) hkk
        dsimp only at this
        obtain ⟨ha1, ha2⟩ := hadj
        have e1 : i2 + (t - k1) = i1 + t := by omega
        have e2 : j2 + (t - k1) = j1 + t := by omega
        rwa [e1, e2] at this
    · rcases List.mem_cons.mp hx with rfl | hx2
      · exact hc
      · exact ih (i2, j2, k2) (hl _ (List.mem_cons_self _ _))
          (fun y hy => hl y (List.mem_cons_of_mem _ hy)) x hx2
    · exact ih (i2, j2, k2) (hl _ (List.mem_cons_self _ _))
        (fun y hy => hl y (List.mem_cons_of_mem _ hy)) x hx

theorem getMatchingBlocks_true (a b : List α) :
    ∀ blk ∈ getMatchingBlocks a b, TrueBlock a b blk := by
  intro blk hblk
  unfold getMatchingBlocks at hblk
  rcases List.mem_append.mp hblk with h | h
  · refine collapseBlocks_true a b _ (0, 0, 0)
      (fun t ht => by dsimp only at ht; omega) ?_ blk h
    intro x hx
    exact gmbGo_true a b _ _ [] (fun y hy => by cases hy) x
      (mem_sortBlocks.mp hx)
  · rcases List.mem_singleton.mp h with rfl
    intro t ht
    dsimp only at ht
    omega

theorem opcodesLoop_equal (blocks : List Block) :
    ∀ i j op, op ∈ opcodesLoop i j blocks → op.tag = .equal →
      ∃ blk ∈ blocks,
        op = ⟨.equal, blk.1, blk.1 + blk.2.2, blk.2.1, blk.2.1 + blk.2.2⟩ := by
  induction blocks with
  | nil => intro i j op hop; cases hop
  | cons blk rest ih =>
    intro i j op hop htag
    obtain ⟨ai, bj, size⟩ := blk
    simp only [opcodesLoop] at hop
    rcases List.mem_append.mp hop with h | h
    · rcases List.mem_append.mp h with h1 | h2
      · exfalso
        split_ifs at h1 <;>
          first
            | (rcases List.mem_singleton.mp h1 with rfl; simp at htag)
            | cases h1
      · split_ifs at h2 with hsz
        · rcases List.mem_singleton.mp h2 with rfl
          exact ⟨(ai, bj, size), List.mem_cons_self _ _, rfl⟩
        · cases h2
    · obtain ⟨blk2, hmem, heq⟩ := ih _ _ op h htag
      exact ⟨blk2, List.mem_cons_of_mem _ hmem, heq⟩

/-- The box `(i, i + k, j, j + k)` spanned by a block. -/
def boxOf (blk : Block) : Region :=
  (blk.1, blk.1 + blk.2.2, blk.2.1, blk.2.1 + blk.2.2)

/-- `u` lies inside `v` (regions as `(alo, ahi, blo, bhi)`). -/
def SubR (u v : Region) : Prop :=
  v.1 ≤ u.1 ∧ u.2.1 ≤ v.2.1 ∧ v.2.2.1 ≤ u.2.2.1 ∧ u.2.2.2 ≤ v.2.2.2

/-- `u` lies entirely before `v`, on both axes. -/
def BeforeR (u v : Region) : Prop :=
  u.2.1 ≤ v.1 ∧ u.2.2.2 ≤ v.2.2.1

/-- `u` and `v` are separated (one entirely before the other). -/
def SepR (u v : Region) : Prop := BeforeR u v ∨ BeforeR v u

theorem SepR_symm : Symmetric SepR := fun _ _ h => h.symm

theorem SubR_trans {u v w : Region} (h1 : SubR u v) (h2 : SubR v w) :
    SubR u w := by
  obtain ⟨a1, a2, a3, a4⟩ := h1
  obtain ⟨b1, b2, b3, b4⟩ := h2
  exact ⟨by omega, by omega, by omega, by omega⟩

theorem SepR_of_sub {u v w : Region} (hs : SubR u v) (h : SepR v w) :
    SepR u w := by
  obtain ⟨a1, a2, a3, a4⟩ := hs
  rcases h with ⟨b1, b2⟩ | ⟨b1, b2⟩
  · exact Or.inl ⟨by omega, by omega⟩
  · exact Or.inr ⟨by omega, by omega⟩

theorem mem_ite_singleton {c : Prop} [Decidable c] {x y : Region}
    (h : y ∈ (if c then [x] else [])) : y = x ∧ c := by
  split_ifs at h with hc
  · exact ⟨List.mem_singleton.mp h, hc⟩
  · cases h

theorem pairwise_ite_singleton {R : Region → Region → Prop} {c : Prop}
    [Decidable c] {x : Region} : List.Pairwise R (if c then [x] else []) := by
  split_ifs <;> simp

/-- Geometric invariant of the queue loop: the pending regions and the
boxes of the emitted blocks are pairwise separated, lie inside the
universe `U`, and every emitted block is non-empty.  (This holds for any
fuel: running out of fuel can only drop pending regions, which never
breaks separation.) -/
theorem gmbGo_geom (a b : List α) (U : Region) :
    ∀ fuel queue acc,
      List.Pairwise SepR (queue ++ acc.map boxOf) →
      (∀ u ∈ queue ++ acc.map boxOf, SubR u U) →
      (∀ blk ∈ acc, 1 ≤ blk.2.2) →
      List.Pairwise SepR ((gmbGo a b fuel queue acc).map boxOf) ∧
      (∀ u ∈ (gmbGo a b fuel queue acc).map boxOf, SubR u U) ∧
      (∀ blk ∈ gmbGo a b fuel queue acc, 1 ≤ blk.2.2) := by
  intro fuel
  induction fuel with
  | zero =>
    intro queue acc hpw hsub hk
    have hres : gmbGo a b 0 queue acc = acc := by
      cases queue <;> rfl
    rw [hres]
    refine ⟨?_, ?_, hk⟩
    · exact hpw.sublist (queue.sublist_append_right (acc.map boxOf))
    · intro u hu
      exact hsub u (List.mem_append_right queue hu)
  | succ n ih =>
    intro queue acc hpw hsub hk
    cases queue with
    | nil =>
      rw [show gmbGo a b (n + 1) [] acc = acc from rfl]
      exact ⟨by simpa using hpw, by simpa using hsub, hk⟩
    | cons r rest =>
      obtain ⟨alo, ahi, blo, bhi⟩ := r
      have hb := flm_lower a b alo ahi blo bhi
      rw [gmbGo]
      rcases hm : findLongestMatch a b alo ahi blo bhi with ⟨i, j, k⟩
      rw [hm] at hb
      dsimp only at hb
      dsimp only
      have hRU : SubR (alo, ahi, blo, bhi) U :=
        hsub _ (List.mem_append_left _ (List.mem_cons_self _ _))
      obtain ⟨hRtail, hpwtail⟩ := List.pairwise_cons.mp hpw
      by_cases hkz : k ≠ 0
      · rw [if_pos hkz]
        obtain ⟨hik, hjk⟩ := hb.2.2 (by omega)
        have hia : alo ≤ i := hb.1
        have hjb : blo ≤ j := hb.2.1
        have hBsub : SubR (boxOf (i, j, k)) (alo, ahi, blo, bhi) := by
          simp only [SubR, boxOf]; omega
        have hQ1sub : SubR (alo, i, blo, j) (alo, ahi, blo, bhi) := by
          simp only [SubR]; omega
        have hQ2sub : SubR (i + k, ahi, j + k, bhi) (alo, ahi, blo, bhi) := by
          simp only [SubR]; omega
        have hq1B : BeforeR (alo, i, blo, j) (boxOf (i, j, k)) := by
          simp only [BeforeR, boxOf]; omega
        have hBq2 : BeforeR (boxOf (i, j, k)) (i + k, ahi, j + k, bhi) := by
          simp only [BeforeR, boxOf]; omega
        have hq1q2 : BeforeR (alo, i, blo, j) (i + k, ahi, j + k, bhi) := by
          simp only [BeforeR]; omega
        set q1 : List Region :=
          if alo < i ∧ blo < j then [(alo, i, blo, j)] else [] with hq1def
        set q2 : List Region :=
          if i + k < ahi ∧ j + k < bhi then [(i + k, ahi, j + k, bhi)] else []
          with hq2def
        have hq1mem : ∀ u ∈ q1, u = (alo, i, blo, j) := by
          intro u hu; exact (mem_ite_singleton (hq1def ▸ hu)).1
        have hq2mem : ∀ u ∈ q2, u = (i + k, ahi, j + k, bhi) := by
          intro u hu; exact (mem_ite_singleton (hq2def ▸ hu)).1
        have htailSep : ∀ u, SubR u (alo, ahi, blo, bhi) →
            ∀ w ∈ rest ++ acc.map boxOf, SepR u w := by
          intro u hu w hw
          exact SepR_of_sub hu (hRtail w hw)
        refine ih (q2 ++ q1 ++ rest) ((i, j, k) :: acc) ?_ ?_ ?_
        · have hgoal : List.Pairwise SepR
              (q2 ++ (q1 ++ (rest ++ boxOf (i, j, k) :: acc.map boxOf))) := by
            rw [List.pairwise_append]
            refine ⟨by rw [hq2def]; exact pairwise_ite_singleton, ?_, ?_⟩
            · rw [List.pairwise_append]
              refine ⟨by rw [hq1def]; exact pairwise_ite_singleton, ?_, ?_⟩
              · rw [List.pairwise_append]
                refine ⟨(List.pairwise_append.mp hpwtail).1, ?_, ?_⟩
                · refine List.Pairwise.cons ?_
                    ((List.pairwise_append.mp hpwtail).2.1)
                  intro w hw
                  exact SepR_of_sub hBsub
                    (hRtail w (List.mem_append_right rest hw))
                · intro x hx w hw
                  rcases List.mem_cons.mp hw with rfl | hw2
                  · exact SepR_symm (SepR_of_sub hBsub
                      (hRtail x (List.mem_append_left _ hx)))
                  · exact (List.pairwise_append.mp hpwtail).2.2 x hx w hw2
              · intro x hx w hw
                rw [hq1mem x hx]
                rcases List.mem_append.mp hw with hw1 | hw2
                · exact htailSep _ hQ1sub w (List.mem_append_left _ hw1)
                · rcases List.mem_cons.mp hw2 with rfl | hw3
                  · exact Or.inl hq1B
                  · exact htailSep _ hQ1sub w (List.mem_append_right _ hw3)
            · intro x hx w hw
              rw [hq2mem x hx]
              rcases List.mem_append.mp hw with hw1 | hw2
              · rw [hq1mem w hw1]
                exact Or.inr hq1q2
              · rcases List.mem_append.mp hw2 with hw3 | hw4
                · exact htailSep _ hQ2sub w (List.mem_append_left _ hw3)
                · rcases List.mem_cons.mp hw4 with rfl | hw5
                  · exact Or.inr hBq2
                  · exact htailSep _ hQ2sub w (List.mem_append_right _ hw5)
          simpa [List.append_assoc] using hgoal
        · intro u hu
          rcases List.mem_append.mp hu with hq | hacc2
          · rcases List.mem_append.mp hq with hq2' | hrest
            · rcases List.mem_append.mp hq2' with h2 | h1
              · rw [hq2mem u h2]; exact SubR_trans hQ2sub hRU
              · rw [hq1mem u h1]; exact SubR_trans hQ1sub hRU
            · exact hsub u (List.mem_append_left _
                (List.mem_cons_of_mem _ hrest))
          · rcases List.mem_cons.mp hacc2 with rfl | h5
            · exact SubR_trans hBsub hRU
            · exact hsub u (List.mem_append_right _ h5)
        · intro blk hblk
          rcases List.mem_cons.mp hblk with rfl | h5
          · dsimp; omega
          · exact hk blk h5
      · rw [if_neg hkz]
        refine ih rest acc hpwtail ?_ hk
        intro u hu
        exact hsub u (by
          rcases List.mem_append.mp hu with h1 | h1
          · exact List.mem_append_left _ (List.mem_cons_of_mem _ h1)
          · exact List.mem_append_right _ h1)

theorem blockLE_total (x y : Block) : blockLE x y = true ∨ blockLE y x = true := by
  simp only [blockLE, Bool.or_eq_true, Bool.and_eq_true, decide_eq_true_eq]
  omega

theorem blockLE_trans {x y z : Block} (h1 : blockLE x y = true)
    (h2 : blockLE y z = true) : blockLE x z = true := by
  simp only [blockLE, Bool.or_eq_true, Bool.and_eq_true,
    decide_eq_true_eq] at h1 h2 ⊢
  omega

theorem pairwise_insertBlock {x : Block} {l : List Block}
    (hl : List.Pairwise (fun u v => blockLE u v = true) l) :
    List.Pairwise (fun u v => blockLE u v = true) (insertBlock x l) := by
  induction l with
  | nil => simp [insertBlock]
  | cons y ys ih =>
    obtain ⟨hy, hys⟩ := List.pairwise_cons.mp hl
    by_cases h : blockLE x y = true
    · rw [insertBlock, if_pos h]
      refine List.Pairwise.cons ?_ (List.Pairwise.cons hy hys)
      intro z hz
      rcases List.mem_cons.mp hz with rfl | hz2
      · exact h
      · exact blockLE_trans h (hy z hz2)
    · rw [insertBlock, if_neg h]
      refine List.Pairwise.cons ?_ (ih hys)
      intro z hz
      rcases mem_insertBlock.mp hz with hzx | hz2
      · rw [hzx]
        rcases blockLE_total x y with hxy | hyx
        · exact absurd hxy h
        · exact hyx
      · exact hy z hz2

theorem sortBlocks_sorted (l : List Block) :
    List.Pairwise (fun u v => blockLE u v = true) (sortBlocks l) := by
  induction l with
  | nil => simp [sortBlocks]
  | cons x xs ih => exact pairwise_insertBlock ih

theorem insertBlock_perm (x : Block) (l : List Block) :
    (insertBlock x l).Perm (x :: l) := by
  induction l with
  | nil => simp [insertBlock]
  | cons y ys ih =>
    by_cases h : blockLE x y = true
    · rw [insertBlock, if_pos h]
    · rw [insertBlock, if_neg h]
      exact (ih.cons y).trans (List.Perm.swap x y ys)

theorem sortBlocks_perm (l : List Block) : (sortBlocks l).Perm l := by
  induction l with
  | nil => simp [sortBlocks]
  | cons x xs ih =>
    exact (insertBlock_perm x (sortBlocks xs)).trans (ih.cons x)

/-- `x` ends at or before `y` begins, on both axes. -/
def BlockLEc (x y : Block) : Prop :=
  x.1 + x.2.2 ≤ y.1 ∧ x.2.1 + x.2.2 ≤ y.2.1

/-- After sorting, the emitted blocks form a chain: each ends at or before
the next begins, on both axes, and they all lie inside the inputs. -/
theorem sorted_blocks_props (a b : List α) :
    List.Pairwise BlockLEc
      (sortBlocks (gmbGo a b (2 * a.length + 1)
        [(0, a.length, 0, b.length)] [])) ∧
    ∀ blk ∈ sortBlocks (gmbGo a b (2 * a.length + 1)
        [(0, a.length, 0, b.length)] []),
      blk.1 + blk.2.2 ≤ a.length ∧ blk.2.1 + blk.2.2 ≤ b.length := by
  have hgeom := gmbGo_geom a b (0, a.length, 0, b.length)
    (2 * a.length + 1) [(0, a.length, 0, b.length)] []
    (by simp) (by
      intro u hu
      simp only [List.map_nil, List.append_nil, List.mem_singleton] at hu
      subst hu
      exact ⟨Nat.le_refl _, Nat.le_refl _, Nat.le_refl _, Nat.le_refl _⟩)
    (by intro blk hblk; cases hblk)
  obtain ⟨hpw, hsub, hpos⟩ := hgeom
  set blocks0 := gmbGo a b (2 * a.length + 1)
    [(0, a.length, 0, b.length)] [] with hb0
  have hperm := sortBlocks_perm blocks0
  have hpw2 : List.Pairwise (fun x y => SepR (boxOf x) (boxOf y))
      (sortBlocks blocks0) := by
    exact (hperm.pairwise_iff (fun {u v} h => SepR_symm h)).mpr
      (List.pairwise_map.mp hpw)
  have hlex := sortBlocks_sorted blocks0
  constructor
  · refine (hpw2.and hlex).imp_of_mem ?_
    intro x y hx hy hxy
    obtain ⟨hsep, hle⟩ := hxy
    have hky : 1 ≤ y.2.2 := hpos y (mem_sortBlocks.mp hy)
    rcases hsep with ⟨h1, h2⟩ | ⟨h1, h2⟩
    · simp only [boxOf] at h1 h2
      exact ⟨h1, h2⟩
    · exfalso
      simp only [boxOf] at h1 h2
      simp only [blockLE, Bool.or_eq_true, Bool.and_eq_true,
        decide_eq_true_eq] at hle
      omega
  · intro blk hblk
    have := hsub (boxOf blk) (List.mem_map_of_mem boxOf (mem_sortBlocks.mp hblk))
    simp only [SubR, boxOf] at this
    exact ⟨this.2.1, this.2.2.2⟩

/-- The running-cursor chain property the opcode loop needs. -/
def ChainOk : Nat → Nat → List Block → Prop
  | _, _, [] => True
  | i, j, blk :: rest =>
    i ≤ blk.1 ∧ j ≤ blk.2.1 ∧
      ChainOk (blk.1 + blk.2.2) (blk.2.1 + blk.2.2) rest

theorem collapse_chain (la lb : Nat) :
    ∀ (l : List Block) (cur : Block) (i0 j0 : Nat),
      i0 ≤ cur.1 → j0 ≤ cur.2.1 →
      List.Pairwise BlockLEc (cur :: l) →
      (∀ blk ∈ cur :: l, blk.1 + blk.2.2 ≤ la ∧ blk.2.1 + blk.2.2 ≤ lb) →
      ChainOk i0 j0 (collapseBlocks cur l ++ [(la, lb, 0)]) := by
  intro l
  induction l with
  | nil =>
    intro cur i0 j0 h1 h2 hpw hbnd
    obtain ⟨i1, j1, k1⟩ := cur
    have hb := hbnd (i1, j1, k1) (List.mem_cons_self _ _)
    have hb1 : i1 + k1 ≤ la := hb.1
    have hb2 : j1 + k1 ≤ lb := hb.2
    have h1a : i0 ≤ i1 := h1
    have h2a : j0 ≤ j1 := h2
    simp only [collapseBlocks]
    split_ifs with hk1
    · exact ⟨h1a, h2a, hb1, hb2, trivial⟩
    · have hk0 : k1 = 0 := by omega
      exact ⟨by show i0 ≤ la; omega, by show j0 ≤ lb; omega, trivial⟩
  | cons blk rest ih =>
    intro cur i0 j0 h1 h2 hpw hbnd
    obtain ⟨i1, j1, k1⟩ := cur
    obtain ⟨i2, j2, k2⟩ := blk
    obtain ⟨hcur, hpw2⟩ := List.pairwise_cons.mp hpw
    have hc2 : BlockLEc (i1, j1, k1) (i2, j2, k2) :=
      hcur _ (List.mem_cons_self _ _)
    have hc2a : i1 + k1 ≤ i2 := hc2.1
    have hc2b : j1 + k1 ≤ j2 := hc2.2
    have h1a : i0 ≤ i1 := h1
    have h2a : j0 ≤ j1 := h2
    simp only [collapseBlocks]
    split_ifs with hadj hk1
    · obtain ⟨e1, e2⟩ := hadj
      refine ih (i1, j1, k1 + k2) i0 j0 h1a h2a ?_ ?_
      · refine List.Pairwise.cons ?_ ((List.pairwise_cons.mp hpw2).2)
        intro z hz
        have hz2 := (List.pairwise_cons.mp hpw2).1 z hz
        simp only [BlockLEc] at hz2 ⊢
        try dsimp only at hz2 ⊢
        omega
      · intro x hx
        rcases List.mem_cons.mp hx with rfl | hx2
        · have := hbnd (i2, j2, k2)
            (List.mem_cons_of_mem _ (List.mem_cons_self _ _))
          try dsimp only at this ⊢
          show i1 + (k1 + k2) ≤ la ∧ j1 + (k1 + k2) ≤ lb
          omega
        · exact hbnd x (List.mem_cons_of_mem _ (List.mem_cons_of_mem _ hx2))
    · refine ⟨h1a, h2a, ?_⟩
      exact ih (i2, j2, k2) (i1 + k1) (j1 + k1) hc2a hc2b hpw2
        (fun x hx => hbnd x (List.mem_cons_of_mem _ hx))
    · have hk0 : k1 = 0 := by omega
      exact ih (i2, j2, k2) i0 j0 (by show i0 ≤ i2; omega)
        (by show j0 ≤ j2; omega) hpw2
        (fun x hx => hbnd x (List.mem_cons_of_mem _ hx))

/-- The matching blocks (terminator included) form a chain from `(0, 0)`. -/
theorem getMatchingBlocks_chain (a b : List α) :
    ChainOk 0 0 (getMatchingBlocks a b) := by
  obtain ⟨hpw, hbnd⟩ := sorted_blocks_props a b
  unfold getMatchingBlocks
  refine collapse_chain a.length b.length _ (0, 0, 0) 0 0
    (Nat.le_refl 0) (Nat.le_refl 0) ?_ ?_
  · refine List.Pairwise.cons ?_ hpw
    intro z hz
    simp only [BlockLEc]
    omega
  · intro blk hblk
    rcases List.mem_cons.mp hblk with rfl | h2
    · dsimp only; omega
    · exact hbnd blk h2

/-- Specification-side tiling: the ranges are contiguous from `s`, in
order, non-overlapping, and end exactly at `e`. -/
def tiles (s : Nat) : List (Nat × Nat) → Nat → Prop
  | [], e => s = e
  | (x, y) :: rest, e => x = s ∧ s ≤ y ∧ tiles y rest e

/-- Final old-side cursor after a block list. -/
def cursorEndA : Nat → List Block → Nat
  | i, [] => i
  | _, blk :: rest => cursorEndA (blk.1 + blk.2.2) rest

/-- Final new-side cursor after a block list. -/
def cursorEndB : Nat → List Block → Nat
  | j, [] => j
  | _, blk :: rest => cursorEndB (blk.2.1 + blk.2.2) rest

theorem cursorEndA_concat (x : Block) :
    ∀ (l : List Block) (i : Nat), cursorEndA i (l ++ [x]) = x.1 + x.2.2 := by
  intro l
  induction l with
  | nil => intro i; rfl
  | cons y ys ih => intro i; exact ih _

theorem cursorEndB_concat (x : Block) :
    ∀ (l : List Block) (j : Nat), cursorEndB j (l ++ [x]) = x.2.1 + x.2.2 := by
  intro l
  induction l with
  | nil => intro j; rfl
  | cons y ys ih => intro j; exact ih _

theorem opcodesLoop_tiles :
    ∀ (blocks : List Block) (i j : Nat), ChainOk i j blocks →
      tiles i ((opcodesLoop i j blocks).map fun o => (o.i1, o.i2))
        (cursorEndA i blocks) ∧
      tiles j ((opcodesLoop i j blocks).map fun o => (o.j1, o.j2))
        (cursorEndB j blocks) := by
  intro blocks
  induction blocks with
  | nil => intro i j h; exact ⟨rfl, rfl⟩
  | cons blk rest ih =>
    intro i j h
    obtain ⟨ai, bj, size⟩ := blk
    obtain ⟨h1, h2, h3⟩ := h
    have h1a : i ≤ ai := h1
    have h2a : j ≤ bj := h2
    have h3a : ChainOk (ai + size) (bj + size) rest := h3
    have ihr := ih (ai + size) (bj + size) h3a
    simp only [opcodesLoop, cursorEndA, cursorEndB]
    by_cases c1 : i < ai ∧ j < bj
    · rw [if_pos c1]
      by_cases c2 : size ≠ 0
      · rw [if_pos c2]
        exact ⟨⟨rfl, by show i ≤ ai; omega, rfl,
            by show ai ≤ ai + size; omega, ihr.1⟩,
          ⟨rfl, by show j ≤ bj; omega, rfl,
            by show bj ≤ bj + size; omega, ihr.2⟩⟩
      · rw [if_neg c2]
        have hsz : size = 0 := by omega
        subst hsz
        exact ⟨⟨rfl, by show i ≤ ai; omega, by simpa using ihr.1⟩,
          ⟨rfl, by show j ≤ bj; omega, by simpa using ihr.2⟩⟩
    · rw [if_neg c1]
      by_cases c3 : i < ai
      · rw [if_pos c3]
        have hj : j = bj := by omega
        subst hj
        by_cases c2 : size ≠ 0
        · rw [if_pos c2]
          exact ⟨⟨rfl, by show i ≤ ai; omega, rfl,
              by show ai ≤ ai + size; omega, ihr.1⟩,
            ⟨rfl, by show j ≤ j; omega, rfl,
              by show j ≤ j + size; omega, ihr.2⟩⟩
        · rw [if_neg c2]
          have hsz : size = 0 := by omega
          subst hsz
          exact ⟨⟨rfl, by show i ≤ ai; omega, by simpa using ihr.1⟩,
            ⟨rfl, by show j ≤ j; omega, by simpa using ihr.2⟩⟩
      · rw [if_neg c3]
        have hi : i = ai := by omega
        subst hi
        by_cases c4 : j < bj
        · rw [if_pos c4]
          by_cases c2 : size ≠ 0
          · rw [if_pos c2]
            exact ⟨⟨rfl, by show i ≤ i; omega, rfl,
                by show i ≤ i + size; omega, ihr.1⟩,
              ⟨rfl, by show j ≤ bj; omega, rfl,
                by show bj ≤ bj + size; omega, ihr.2⟩⟩
          · rw [if_neg c2]
            have hsz : size = 0 := by omega
            subst hsz
            exact ⟨⟨rfl, by show i ≤ i; omega, by simpa using ihr.1⟩,
              ⟨rfl, by show j ≤ bj; omega, by simpa using ihr.2⟩⟩
        · rw [if_neg c4]
          have hj : j = bj := by omega
          subst hj
          by_cases c2 : size ≠ 0
          · rw [if_pos c2]
            exact ⟨⟨rfl, by show i ≤ i + size; omega, ihr.1⟩,
              ⟨rfl, by show j ≤ j + size; omega, ihr.2⟩⟩
          · rw [if_neg c2]
            have hsz : size = 0 := by omega
            subst hsz
            exact ⟨by simpa using ihr.1, by simpa using ihr.2⟩

/-- Specification-side cost of an opcode sequence: the number of old-side
plus new-side lines covered by non-`equal` opcodes. -/
def editCoverage (ops : List Opcode) : Nat :=
  (ops.map fun o =>
    match o.tag with
    | Tag.equal => 0
    | _ => (o.i2 - o.i1) + (o.j2 - o.j1)).sum

/-- Specification-side alignment check, with running cursors: opcode
ranges tile `[0, len a)` and `[0, len b)` contiguously, `insert` covers no
old lines, `delete` covers no new lines, and `equal` covers equal-length
ranges of pairwise-equal elements. -/
def alignOk (a b : List α) : Nat → Nat → List Opcode → Bool
  | i, j, [] => decide (i = a.length) && decide (j = b.length)
  | i, j, op :: rest =>
    decide (op.i1 = i) && decide (op.j1 = j) &&
    decide (op.i1 ≤ op.i2) && decide (op.j1 ≤ op.j2) &&
    (match op.tag with
     | Tag.equal =>
       decide (op.i2 - op.i1 = op.j2 - op.j1) &&
         (List.range (op.i2 - op.i1)).all fun t =>
           decide (a[op.i1 + t]? = b[op.j1 + t]?)
     | Tag.insert => decide (op.i1 = op.i2)
     | Tag.delete => decide (op.j1 = op.j2)
     | Tag.replace => true) &&
    alignOk a b op.i2 op.j2 rest

/-- Specification-side: `ops` is a valid alignment of `a` with `b`. -/
def isAlignment (a b : List α) (ops : List Opcode) : Bool :=
  alignOk a b 0 0 ops

end Difflib

/-!
## `highlight_html_diff`
-/

/-- Opening wrapper of an `insert` line:
`<span style="background-color: yellow;">`. -/
def insOpen : List Char := "<span style=\"background-color: yellow;\">".toList

/-- Closing `</span>` of `insert`/`replace` lines. -/
def spanClose : List Char := "</span>".toList

/-- Opening wrapper of a `delete` line:
`<del style="background-color: #fcc;">`. -/
def delOpen : List Char := "<del style=\"background-color: #fcc;\">".toList

/-- Closing `</del>` of `delete` lines. -/
def delClose : List Char := "</del>".toList

/-- Opening wrapper of a `replace` line:
`<span style="background-color: #faa;">`. -/
def replOpen : List Char := "<span style=\"background-color: #faa;\">".toList

/-- Rendering of one inserted line: escape, then wrap in the yellow span. -/
def renderInsLine (l : List Char) : List Char :=
  insOpen ++ escapeHtml l ++ spanClose

/-- Rendering of one deleted line: escape, then wrap in the `<del>` marker. -/
def renderDelLine (l : List Char) : List Char :=
  delOpen ++ escapeHtml l ++ delClose

/-- Rendering of one replaced ("modified") line: escape, then wrap in the
`#faa` span. -/
def renderReplLine (l : List Char) : List Char :=
  replOpen ++ escapeHtml l ++ spanClose

/-- The lines `highlight_html_diff` appends to `result` for one opcode.
The Python loops index `old_pairs`/`new_pairs` with `range(i1, i2)` /
`range(j1, j2)`; the opcode ranges always lie inside the line lists (the
coverage property proved below), so the `getD []` default is never hit on
the program's own calls. -/
def renderOpcode (oldLines newLines : List (List Char)) (op : Difflib.Opcode) :
    List (List Char) :=
  match op.tag with
  | .equal =>
    (List.range' op.j1 (op.j2 - op.j1)).map fun idx => (newLines[idx]?).getD []
  | .insert =>
    (List.range' op.j1 (op.j2 - op.j1)).map fun idx =>
      renderInsLine ((newLines[idx]?).getD [])
  | .delete =>
    (List.range' op.i1 (op.i2 - op.i1)).map fun idx =>
      renderDelLine ((oldLines[idx]?).getD [])
  | .replace =>
    (List.range' op.j1 (op.j2 - op.j1)).map fun idx =>
      renderReplLine ((newLines[idx]?).getD [])

/-- `highlight_html_diff(old_html, new_html)`: split into lines with kept
line endings, reduce each line to its readable-text comparison key, run the
`SequenceMatcher` over the key sequences, render each opcode, and join
everything after the `<meta charset='UTF-8'>` header. -/
def highlightHtmlDiff (oldHtml newHtml : List Char) : List Char :=
  let oldLines := splitLinesKeep oldHtml
  let newLines := splitLinesKeep newHtml
  let oldKeys := oldLines.map extractReadableText
  let newKeys := newLines.map extractReadableText
  "<meta charset='UTF-8'>\n".toList ++
    (((Difflib.getOpcodes oldKeys newKeys).map
        (renderOpcode oldLines newLines)).flatten).flatten

/-!
## Constants and the Selenium retry loop
-/

/-- `MIN_IMAGE_WIDTH = 50`. -/
def MIN_IMAGE_WIDTH : Nat := 50

/-- `MIN_IMAGE_HEIGHT = 50`. -/
def MIN_IMAGE_HEIGHT : Nat := 50

/-- `MAX_RETRIES = 5`. -/
def MAX_RETRIES : Nat := 5

/-- The `for attempt in range(MAX_RETRIES)` loop of
`get_page_content_with_selenium`: `att k` is the outcome of the `k`-th
`driver.get` attempt (page source, or the `WebDriverException` message);
the loop returns `(page_source, None)` on the first success and
`(None, str(last_exception))` after exhausting the attempts. -/
def getPageLoop (att : Nat → Except (List Char) (List Char)) :
    Nat → Nat → Option (List Char) → Option (List Char) × Option (List Char)
  | 0, _, lastExc => (none, lastExc)
  | n + 1, k, lastExc =>
    match att k with
    | .ok page => (some page, none)
    | .error e => getPageLoop att n (k + 1) (some e)

/-- `get_page_content_with_selenium(url, driver)`, with the per-attempt
driver behaviour supplied as an oracle. -/
def getPageContent (att : Nat → Except (List Char) (List Char)) :
    Option (List Char) × Option (List Char) :=
  getPageLoop att MAX_RETRIES 0 none

/-!
## `compute_image_hashes`
-/

/-- Outcome of `session.get(src, timeout=10)`: either a raised request
exception (message of `e_req`) or a response with a status code and body
bytes. -/
inductive ImgFetch where
  | exc (msg : List Char)
  | resp (status : Nat) (body : List Nat)

/-- The external collaborators `compute_image_hashes` uses for one image:
the `requests` byte fetch, PIL decoding (pixel `(width, height)` or the
raised `e_img` message), and `hashlib.md5(...).hexdigest()`. -/
structure ImgOracle where
  fetch : List Char → ImgFetch
  decode : List Nat → Except (List Char) (Nat × Nat)
  md5hex : List Nat → List Char

/-- Python dict assignment `m[k] = v` on an insertion-ordered mapping:
overwrite in place if the key exists, else append. -/
def upsert : List (List Char × List Char) → List Char → List Char →
    List (List Char × List Char)
  | [], k, v => [(k, v)]
  | (k', v') :: rest, k, v =>
    if k' = k then (k', v) :: rest else (k', v') :: upsert rest k v

/-- `img_hashes[src]` — lookup in the insertion-ordered mapping
(`src in img_hashes` iff the result is `some`). -/
def hashLookup (m : List (List Char × List Char)) (k : List Char) :
    Option (List Char) :=
  match m with
  | [] => none
  | (k', v) :: rest => if k' = k then some v else hashLookup rest k

/-- The value `compute_image_hashes` records for one `src` (or `none` when
the image is skipped because it decodes below the minimum size). -/
def imgEntry (oracle : ImgOracle) (src : List Char) : Option (List Char) :=
  match oracle.fetch src with
  | .exc e => some ("Error:".toList ++ e)
  | .resp status body =>
    if status = 200 then
      match oracle.decode body with
      | .error e => some ("ErrorImage:".toList ++ e)
      | .ok (w, h) =>
        if w < MIN_IMAGE_WIDTH ∨ h < MIN_IMAGE_HEIGHT then none
        else some (oracle.md5hex body)
    else some ("ErrorStatus:".toList ++ (toString status).toList)

/-- One iteration of `compute_image_hashes`'s loop: `none` models a missing
`src` attribute, and `if not src: continue` also skips an empty string. -/
def imgStep (oracle : ImgOracle) (m : List (List Char × List Char))
    (osrc : Option (List Char)) : List (List Char × List Char) :=
  match osrc with
  | none => m
  | some src =>
    if src = [] then m
    else
      match imgEntry oracle src with
      | none => m
      | some v => upsert m src v

/-- `compute_image_hashes(soup, base_url)`: fold over the `src` attributes
of the page's `img` tags. -/
def computeImageHashes (oracle : ImgOracle)
    (srcs : List (Option (List Char))) : List (List Char × List Char) :=
  srcs.foldl (imgStep oracle) []

/-!
## The per-target orchestration of `main`
-/

/-- One persisted snapshot record, the `new_data` dict written to
`<sanitized-name>.json`. -/
structure Snapshot where
  name : List Char
  url : List Char
  retrievedAt : List Char
  htmlSource : List Char
  textForDiff : List Char
  imageHashes : List (List Char × List Char)
  deriving DecidableEq, Repr

/-- The backup folder, as a mapping from file name to the snapshot stored
in that file. -/
abbrev Store := List (List Char × Snapshot)

/-- `json.load` of a target's backup file, if present. -/
def storeLookup (store : Store) (key : List Char) : Option Snapshot :=
  match store with
  | [] => none
  | (k, s) :: rest => if k = key then some s else storeLookup rest key

/-- `json.dump` to a target's backup file: overwrite or create. -/
def storeSave (store : Store) (key : List Char) (snap : Snapshot) : Store :=
  match store with
  | [] => [(key, snap)]
  | (k, s) :: rest =>
    if k = key then (k, snap) :: rest else (k, s) :: storeSave rest key snap

/-- `re.match(r"^https?://", url)`. -/
def urlOk (url : List Char) : Bool :=
  "http://".toList.isPrefixOf url || "https://".toList.isPrefixOf url

/-- The external collaborators of one processing cycle: the Selenium
driver (per-URL, per-attempt outcomes), the BeautifulSoup text extraction
`get_text(separator="\n")` after `remove_unnecessary_tags`, the `img src`
extraction of the parse, the image oracles, and the wall clock. -/
structure Env where
  attempts : List Char → Nat → Except (List Char) (List Char)
  normalize : List Char → List Char
  imgSrcs : List Char → List (Option (List Char))
  img : ImgOracle
  nowStr : List Char
  dateYmd : List Char
  timeHm : List Char

/-- Per-target outcome of one cycle, as reported by `main`'s prints. -/
inductive Outcome where
  | badUrl | fetchFailed | firstCapture | unchanged | changed
  deriving DecidableEq, Repr

/-- A file write performed while processing one target, in order:
diff artifacts (`diff_file_path`) and snapshot saves (`file_path`). -/
inductive Effect where
  | writeDiff (fileName content : List Char)
  | writeSnap (fileName : List Char) (snap : Snapshot)
  deriving DecidableEq, Repr

/-- The `diff_html_full` f-string shell around `diff_html` (the literal
16-space indentation of the source's triple-quoted string included). -/
def wrapDiffShell (name diffHtml : List Char) : List Char :=
  "\n                <html>\n                <head>\n                <meta charset=\"UTF-8\">\n                <title>Diff for ".toList
    ++ name ++
    "</title>\n                </head>\n                <body>\n                ".toList
    ++ diffHtml ++
    "\n                </body>\n                </html>\n                ".toList

/-- `diff_filename`. -/
def diffFileName (env : Env) (name : List Char) : List Char :=
  "diff-".toList ++ env.dateYmd ++ "-".toList ++ env.timeHm ++ "-".toList ++
    sanitizeFilename name ++ ".html".toList

/-- `file_name = sanitize_filename(name) + ".json"`: the storage key of a
target. -/
def storageKey (name : List Char) : List Char :=
  sanitizeFilename name ++ ".json".toList

/-- The `new_data` record assembled for one successful fetch. -/
def cycleSnapshot (env : Env) (name url page : List Char) : Snapshot :=
  ⟨name, url, env.nowStr, page, env.normalize page,
    computeImageHashes env.img (env.imgSrcs page)⟩

/-- The body of `main`'s per-row loop for one target (after
`name`/`url` are read and stripped): URL check, prior-snapshot load, fetch
with retries, snapshot assembly, the changed/unchanged/first-capture
branches, and the writes they perform (diff artifact before snapshot
save).  Returns the reported outcome, the store after the cycle and the
ordered list of file writes. -/
def processTarget (env : Env) (store : Store) (name url : List Char) :
    Outcome × Store × List Effect :=
  if ¬ urlOk url then (.badUrl, store, [])
  else
    let fileName := storageKey name
    let oldData := storeLookup store fileName
    match (getPageContent (env.attempts url)).1 with
    | none => (.fetchFailed, store, [])
    | some page =>
      let newData := cycleSnapshot env name url page
      match oldData with
      | some old =>
        if old.textForDiff ≠ newData.textForDiff then
          let diffHtml := highlightHtmlDiff old.htmlSource page
          (.changed, storeSave store fileName newData,
            [.writeDiff (diffFileName env name) (wrapDiffShell name diffHtml),
             .writeSnap fileName newData])
        else
          (.unchanged, storeSave store fileName newData,
            [.writeSnap fileName newData])
      | none =>
        (.firstCapture, storeSave store fileName newData,
          [.writeSnap fileName newData])

/-- `main`'s loop over the CSV rows: process each `(name, url)` in order,
threading the backup store and collecting outcomes and writes. -/
def runTargets (env : Env) :
    List (List Char × List Char) → Store → Store × List Outcome × List Effect
  | [], store => (store, [], [])
  | (name, url) :: rest, store =>
    let r := processTarget env store name url
    let r2 := runTargets env rest r.2.1
    (r2.1, r.1 :: r2.2.1, r.2.2 ++ r2.2.2)

/-!
## Exception-transparent variant of the cycle

`main` wraps nothing in `try`/`except`: if `highlight_html_diff` raised,
the exception would propagate out of the `for` loop and abort the run.
`processTargetE` is `processTarget` with the highlighter generalised to a
fallible oracle, making that propagation explicit. -/

/-- `processTarget` with a fallible Differ+Highlighter: a raise in the
changed branch escapes before any write of that branch happens. -/
def processTargetE (env : Env)
    (hl : List Char → List Char → Except (List Char) (List Char))
    (store : Store) (name url : List Char) :
    Except (List Char) (Outcome × Store × List Effect) :=
  if ¬ urlOk url then .ok (.badUrl, store, [])
  else
    let fileName := storageKey name
    let oldData := storeLookup store fileName
    match (getPageContent (env.attempts url)).1 with
    | none => .ok (.fetchFailed, store, [])
    | some page =>
      let newData := cycleSnapshot env name url page
      match oldData with
      | some old =>
        if old.textForDiff ≠ newData.textForDiff then
          match hl old.htmlSource page with
          | .error e => .error e
          | .ok diffHtml =>
            .ok (.changed, storeSave store fileName newData,
              [.writeDiff (diffFileName env name) (wrapDiffShell name diffHtml),
               .writeSnap fileName newData])
        else
          .ok (.unchanged, storeSave store fileName newData,
            [.writeSnap fileName newData])
      | none =>
        .ok (.firstCapture, storeSave store fileName newData,
          [.writeSnap fileName newData])

/-- `main`'s loop with the fallible highlighter: an uncaught exception
aborts the whole run, leaving the remaining targets unprocessed. -/
def runTargetsE (env : Env)
    (hl : List Char → List Char → Except (List Char) (List Char)) :
    List (List Char × List Char) → Store →
      Except (List Char) (Store × List Outcome × List Effect)
  | [], store => .ok (store, [], [])
  | (name, url) :: rest, store =>
    match processTargetE env hl store name url with
    | .error e => .error e
    | .ok r =>
      match runTargetsE env hl rest r.2.1 with
      | .error e => .error e
      | .ok r2 => .ok (r2.1, r.1 :: r2.2.1, r.2.2 ++ r2.2.2)

/-!
## Model of the Normalizer's external parse

`text_for_diff` is produced by `remove_unnecessary_tags(BeautifulSoup(...))`
followed by `soup.get_text(separator="\n")`.  `BeautifulSoup` is a
third-party collaborator, so the parsed page is modelled as a node tree;
everything below the parse is embedded: `remove_unnecessary_tags`
decomposes every `style` and `script` element (subtree removal), and
`get_text(separator)` joins the text nodes in document order with the
separator. -/

mutual
/-- One parsed markup node: a text node, or an element with a tag name,
attributes and children. -/
inductive HNode where
  | text : List Char → HNode
  | elem : List Char → List (List Char × List Char) → HNodes → HNode

/-- A sequence of sibling nodes. -/
inductive HNodes where
  | nil : HNodes
  | cons : HNode → HNodes → HNodes
end

mutual
/-- `remove_unnecessary_tags`: decompose (drop entirely) every `style`
and `script` element, everywhere in the tree. -/
def removeUnnecessaryTags : HNodes → HNodes
  | .nil => .nil
  | .cons n rest => HNodes.append1? n (removeUnnecessaryTags rest)

/-- Helper of `removeUnnecessaryTags` for one node. -/
def HNodes.append1? : HNode → HNodes → HNodes
  | .text s, rest => .cons (.text s) rest
  | .elem tag attrs children, rest =>
    if tag = "style".toList ∨ tag = "script".toList then rest
    else .cons (.elem tag attrs (removeUnnecessaryTags children)) rest
end

mutual
/-- The text-node strings of a node sequence, in document order — the
strings `get_text` joins. -/
def textStrings : HNodes → List (List Char)
  | .nil => []
  | .cons n rest => textStrings1 n ++ textStrings rest

/-- The text-node strings of one node. -/
def textStrings1 : HNode → List (List Char)
  | .text s => [s]
  | .elem _ _ children => textStrings children
end

/-- `soup.get_text(separator="\n")`: join the text-node strings with a
line break. -/
def getTextNl (doc : HNodes) : List Char :=
  List.intercalate ['\n'] (textStrings doc)

/-- `text_for_diff`: the Normalizer applied to a parsed page. -/
def normalizeMarkup (doc : HNodes) : List Char :=
  getTextNl (removeUnnecessaryTags doc)

mutual
/-- Erase every attribute list in a node; two parses are
"attribute-equivalent" when they agree after this erasure. -/
def eraseAttrs1 : HNode → HNode
  | .text s => .text s
  | .elem tag _ children => .elem tag [] (eraseAttrs children)

/-- Erase every attribute list in a node sequence. -/
def eraseAttrs : HNodes → HNodes
  | .nil => .nil
  | .cons n rest => .cons (eraseAttrs1 n) (eraseAttrs rest)
end

/-!
## Supporting lemmas
-/

theorem replaceChar_mem {needle : Char} {repl s : List Char} {c : Char}
    (h : c ∈ replaceChar needle repl s) : c ∈ repl ∨ (c ∈ s ∧ c ≠ needle) := by
  unfold replaceChar at h
  obtain ⟨a, ha, hc⟩ := List.mem_flatMap.mp h
  by_cases han : a = needle
  · rw [if_pos han] at hc; exact Or.inl hc
  · rw [if_neg han] at hc
    rcases List.mem_singleton.mp hc with rfl
    exact Or.inr ⟨ha, han⟩

/-- The escaped body of a highlighted line contains no raw angle bracket:
every `<` and `>` of the input line survives only inside `&lt;`/`&gt;`. -/
theorem escapeHtml_no_angle (l : List Char) :
    '<' ∉ escapeHtml l ∧ '>' ∉ escapeHtml l := by
  constructor
  · intro h
    rcases replaceChar_mem h with h1 | ⟨h1, -⟩
    · simp at h1
    · rcases replaceChar_mem h1 with h2 | ⟨-, h2⟩
      · simp at h2
      · exact h2 rfl
  · intro h
    rcases replaceChar_mem h with h1 | ⟨-, h1⟩
    · simp at h1
    · exact h1 rfl

theorem isInfix_iff_exists_drop {p w : List Char} :
    p <:+: w ↔ ∃ i, p <+: w.drop i := by
  constructor
  · intro h
    obtain ⟨t, hpt, hts⟩ := List.infix_iff_prefix_suffix.mp h
    refine ⟨w.length - t.length, ?_⟩
    rwa [← List.suffix_iff_eq_drop.mp hts]
  · rintro ⟨i, hp⟩
    exact List.IsInfix.trans (List.infix_iff_prefix_suffix.mpr
      ⟨w.drop i, hp, List.suffix_rfl⟩) (List.drop_suffix i w).isInfix

theorem prefix_head {c : Char} {q x : List Char} (h : (c :: q) <+: x) :
    x[0]? = some c := by
  obtain ⟨t, ht⟩ := h
  rw [← ht]
  simp

/-- An occurrence of a pattern `c :: q` inside `pre ++ esc ++ suf` must
start at a `c`; if the only `c` of `pre` is its head (where the pattern
does not fit), `esc` has no `c` at all and `suf` is shorter than the
pattern, there is no occurrence. -/
theorem not_infix_wrapped (c : Char) (q pre esc suf : List Char)
    (hlen : q.length + 1 ≤ pre.length)
    (htake : List.take (q.length + 1) pre ≠ c :: q)
    (htail : c ∉ pre.drop 1)
    (hesc : c ∉ esc)
    (hsuf : suf.length < q.length + 1) :
    ¬ (c :: q) <:+: (pre ++ esc ++ suf) := by
  intro h
  obtain ⟨i, hp⟩ := isInfix_iff_exists_drop.mp h
  rw [List.append_assoc] at hp
  by_cases hi0 : i = 0
  · subst hi0
    rw [List.drop_zero, List.prefix_iff_eq_take] at hp
    rw [List.take_append_of_le_length (by simpa using hlen)] at hp
    exact htake hp.symm
  · have hhead : (pre ++ (esc ++ suf))[i]? = some c := by
      have := prefix_head hp
      rwa [List.getElem?_drop] at this
    by_cases hipre : i < pre.length
    · rw [List.getElem?_append_left hipre] at hhead
      apply htail
      have : (pre.drop 1)[i - 1]? = some c := by
        rw [List.getElem?_drop]
        have : 1 + (i - 1) = i := by omega
        rw [this]; exact hhead
      exact List.getElem?_mem this
    · rw [List.getElem?_append_right (by omega)] at hhead
      by_cases hiesc : i - pre.length < esc.length
      · rw [List.getElem?_append_left hiesc] at hhead
        exact hesc (List.getElem?_mem hhead)
      · have hlendrop := hp.length_le
        rw [List.length_drop] at hlendrop
        simp only [List.length_append, List.length_cons] at hlendrop
        omega

/-- If every one of the first `n` attempts raises, the retry loop of
`get_page_content_with_selenium` reports failure. -/
theorem getPageLoop_fail (att : Nat → Except (List Char) (List Char)) :
    ∀ n k lastExc, (∀ i, i < n → (att (k + i)).isOk = false) →
      (getPageLoop att n k lastExc).1 = none := by
  intro n
  induction n with
  | zero => intro k lastExc hf; rfl
  | succ m ih =>
    intro k lastExc hf
    unfold getPageLoop
    cases hk : att k with
    | ok page =>
      have := hf 0 (by omega)
      rw [Nat.add_zero, hk] at this
      simp [Except.isOk, Except.toBool] at this
    | error e =>
      exact ih (k + 1) (some e) fun i hi => by
        have := hf (i + 1) (by omega)
        have harith : k + (i + 1) = k + 1 + i := by omega
        rwa [harith] at this

theorem hashLookup_upsert (m : List (List Char × List Char))
    (k v src : List Char) :
    hashLookup (upsert m k v) src =
      if k = src then some v else hashLookup m src := by
  induction m with
  | nil =>
    by_cases hk : k = src <;> simp [upsert, hashLookup, hk]
  | cons p rest ih =>
    obtain ⟨k', v'⟩ := p
    by_cases hk' : k' = k
    · subst hk'
      by_cases hk : k' = src <;> simp [upsert, hashLookup, hk, ih]
    · by_cases hks : k' = src
      · subst hks
        have hk : ¬ k = k' := fun h => hk' h.symm
        simp [upsert, hashLookup, hk', hk, ih]
      · simp [upsert, hashLookup, hk', hks, ih]

/-!
## Claims
-/

set_option maxRecDepth 100000

/-- Concrete environment for the storage-key collision scenario: every
fetch succeeds with the same page, normalising to the same text. -/
def c10Env : Env where
  attempts := fun _ _ => .ok "x".toList
  normalize := fun _ => "x".toList
  imgSrcs := fun _ => []
  img := ⟨fun _ => .exc [], fun _ => .error [], fun _ => []⟩
  nowStr := "T".toList
  dateYmd := "D".toList
  timeHm := "M".toList

/-- The snapshot the second colliding target persists. -/
def c10Snap : Snapshot :=
  ⟨"a_b".toList, "http://e".toList, "T".toList, "x".toList, "x".toList, []⟩

/-- C10: `sanitize_filename` is not injective — the distinct target names
`"a/b"` and `"a_b"` map to the same storage key, so after a run over both
targets the store holds a single file, and the second target's snapshot
has overwritten the first's. -/
theorem C10_sanitize_collision :
    sanitizeFilename "a/b".toList = sanitizeFilename "a_b".toList ∧
    "a/b".toList ≠ "a_b".toList ∧
    (runTargets c10Env
        [("a/b".toList, "http://e".toList), ("a_b".toList, "http://e".toList)]
        []).1 = [("a_b.json".toList, c10Snap)] ∧
    (runTargets c10Env
        [("a/b".toList, "http://e".toList), ("a_b".toList, "http://e".toList)]
        []).2.1 = [.firstCapture, .unchanged] ∧
    c10Snap.name ≠ "a/b".toList :=
  ⟨rfl, by decide, by decide, by decide, by decide⟩

/-- C2: for any line containing `<script>`, the rendered output of an
insert, delete or replace opcode covering that line contains no literal
`<script>` substring, and the escaped body contains no raw `<` or `>` at
all (they survive only as `&lt;`/`&gt;`). -/
theorem C2_escaping_safety (l : List Char)
    (hscript : "<script>".toList <:+: l) :
    (¬ "<script>".toList <:+: renderInsLine l) ∧
    (¬ "<script>".toList <:+: renderDelLine l) ∧
    (¬ "<script>".toList <:+: renderReplLine l) ∧
    '<' ∉ escapeHtml l ∧ '>' ∉ escapeHtml l := by
  have hesc := escapeHtml_no_angle l
  refine ⟨?_, ?_, ?_, hesc.1, hesc.2⟩
  · have := not_infix_wrapped '<' "script>".toList insOpen (escapeHtml l)
      spanClose (by decide) (by decide) (by decide) hesc.1 (by decide)
    simpa [renderInsLine] using this
  · have := not_infix_wrapped '<' "script>".toList delOpen (escapeHtml l)
      delClose (by decide) (by decide) (by decide) hesc.1 (by decide)
    simpa [renderDelLine] using this
  · have := not_infix_wrapped '<' "script>".toList replOpen (escapeHtml l)
      spanClose (by decide) (by decide) (by decide) hesc.1 (by decide)
    simpa [renderReplLine] using this

/-- Witness for C2 at a concrete line containing `<script>`. -/
theorem C2_escaping_safety_witness :
    ("<script>".toList <:+: "a<script>alert(1)</script>b".toList) ∧
    ¬ "<script>".toList <:+:
        renderInsLine "a<script>alert(1)</script>b".toList :=
  ⟨by decide, (C2_escaping_safety "a<script>alert(1)</script>b".toList
    (by decide)).1⟩

theorem imgHashes_stable (oracle : ImgOracle) (src V : List Char)
    (hentry : imgEntry oracle src = some V) :
    ∀ (srcs : List (Option (List Char))) (acc : List (List Char × List Char)),
      hashLookup acc src = some V →
      hashLookup (srcs.foldl (imgStep oracle) acc) src = some V := by
  intro srcs
  induction srcs with
  | nil => intro acc h; exact h
  | cons osrc rest ih =>
    intro acc h
    rcases osrc with - | src'
    · exact ih acc h
    · by_cases hemp : src' = []
      · simpa [imgStep, hemp] using ih acc h
      · by_cases hsrc : src' = src
        · subst hsrc
          simp only [List.foldl_cons, imgStep, if_neg hemp, hentry]
          exact ih _ (by rw [hashLookup_upsert, if_pos rfl])
        · simp only [List.foldl_cons, imgStep, if_neg hemp]
          cases he : imgEntry oracle src' with
          | none => exact ih acc h
          | some v =>
            exact ih _ (by rw [hashLookup_upsert, if_neg hsrc]; exact h)

theorem imgHashes_skip (oracle : ImgOracle) (src : List Char)
    (hentry : imgEntry oracle src = none) :
    ∀ (srcs : List (Option (List Char))) (acc : List (List Char × List Char)),
      hashLookup (srcs.foldl (imgStep oracle) acc) src = hashLookup acc src := by
  intro srcs
  induction srcs with
  | nil => intro acc; rfl
  | cons osrc rest ih =>
    intro acc
    rcases osrc with - | src'
    · exact ih acc
    · by_cases hemp : src' = []
      · simpa [imgStep, hemp] using ih acc
      · by_cases hsrc : src' = src
        · subst hsrc
          simp only [List.foldl_cons, imgStep, if_neg hemp, hentry]
          exact ih acc
        · simp only [List.foldl_cons, imgStep, if_neg hemp]
          cases he : imgEntry oracle src' with
          | none => exact ih acc
          | some v =>
            rw [ih _, hashLookup_upsert, if_neg hsrc]

theorem imgHashes_mem (oracle : ImgOracle) (src V : List Char)
    (hentry : imgEntry oracle src = some V) (hne : src ≠ []) :
    ∀ (srcs : List (Option (List Char))) (acc : List (List Char × List Char)),
      some src ∈ srcs →
      hashLookup (srcs.foldl (imgStep oracle) acc) src = some V := by
  intro srcs
  induction srcs with
  | nil => intro acc h; cases h
  | cons osrc rest ih =>
    intro acc hmem
    rcases List.mem_cons.mp hmem with heq | hmem2
    · subst heq
      simp only [List.foldl_cons, imgStep, if_neg hne, hentry]
      exact imgHashes_stable oracle src V hentry rest _
        (by rw [hashLookup_upsert, if_pos rfl])
    · rcases osrc with - | src2
      · exact ih _ hmem2
      · simp only [List.foldl_cons, imgStep]
        by_cases hemp : src2 = []
        · rw [if_pos hemp]; exact ih _ hmem2
        · rw [if_neg hemp]
          cases he : imgEntry oracle src2 with
          | none => exact ih _ hmem2
          | some v => exact ih _ hmem2

/-- C7: for an image reference whose byte fetch succeeds with status 200
and whose bytes decode to `(w, h)`: if the image is below the 50×50
minimum, no entry is emitted for that reference; otherwise the mapping
records the MD5 content hash of the raw bytes. -/
theorem C7_size_filter (oracle : ImgOracle)
    (srcs : List (Option (List Char))) (src : List Char) (body : List Nat)
    (w h : Nat)
    (hfetch : oracle.fetch src = .resp 200 body)
    (hdecode : oracle.decode body = .ok (w, h)) :
    ((w < MIN_IMAGE_WIDTH ∨ h < MIN_IMAGE_HEIGHT) →
        hashLookup (computeImageHashes oracle srcs) src = none) ∧
    (¬ (w < MIN_IMAGE_WIDTH ∨ h < MIN_IMAGE_HEIGHT) →
      some src ∈ srcs → src ≠ [] →
        hashLookup (computeImageHashes oracle srcs) src =
          some (oracle.md5hex body)) := by
  constructor
  · intro hsmall
    have hentry : imgEntry oracle src = none := by
      simp [imgEntry, hfetch, hdecode, hsmall]
    unfold computeImageHashes
    rw [imgHashes_skip oracle src hentry srcs []]
    rfl
  · intro hbig hmem hne
    have hentry : imgEntry oracle src = some (oracle.md5hex body) := by
      simp [imgEntry, hfetch, hdecode, hbig]
    unfold computeImageHashes
    exact imgHashes_mem oracle src _ hentry hne srcs [] hmem

/-- Image oracle of a 10×10 decodable image. -/
def c7Small : ImgOracle :=
  ⟨fun _ => .resp 200 [1, 2], fun _ => .ok (10, 10), fun _ => "H".toList⟩

/-- Image oracle of a 60×60 decodable image. -/
def c7Big : ImgOracle :=
  ⟨fun _ => .resp 200 [1, 2], fun _ => .ok (60, 60), fun _ => "H".toList⟩

/-- Witness for C7: a 10×10 image leaves no entry, a 60×60 image leaves
its content hash. -/
theorem C7_size_filter_witness :
    hashLookup (computeImageHashes c7Small [some "a".toList]) "a".toList
        = none ∧
    hashLookup (computeImageHashes c7Big [some "a".toList]) "a".toList
        = some "H".toList :=
  ⟨(C7_size_filter c7Small [some "a".toList] "a".toList [1, 2] 10 10
      rfl rfl).1 (by decide),
   (C7_size_filter c7Big [some "a".toList] "a".toList [1, 2] 60 60
      rfl rfl).2 (by decide) (by decide) (by decide)⟩

/-- C8: when every one of the `MAX_RETRIES` fetch attempts for a target
fails, the cycle reports `FETCH_FAILED`, performs no write (the prior
snapshot under that target's key is left exactly as it was), and the run
continues with the remaining targets against the unchanged store. -/
theorem C8_fetch_failure (env : Env) (store : Store)
    (name url : List Char) (rest : List (List Char × List Char))
    (hurl : urlOk url = true)
    (hfail : ∀ k, k < MAX_RETRIES → (env.attempts url k).isOk = false) :
    processTarget env store name url = (.fetchFailed, store, []) ∧
    runTargets env ((name, url) :: rest) store =
      ((runTargets env rest store).1,
        .fetchFailed :: (runTargets env rest store).2.1,
        (runTargets env rest store).2.2) := by
  have hnone : (getPageContent (env.attempts url)).1 = none :=
    getPageLoop_fail _ MAX_RETRIES 0 none fun i hi => by
      simpa using hfail i hi
  have hpt : processTarget env store name url = (.fetchFailed, store, []) := by
    unfold processTarget
    rw [hurl]
    simp only [not_true, if_false, ite_false, Bool.true_eq_false]
    rw [hnone]
  refine ⟨hpt, ?_⟩
  conv_lhs => rw [runTargets]
  rw [hpt]
  simp

/-- Concrete always-failing driver environment for the C8 witness. -/
def c8Env : Env where
  attempts := fun _ _ => .error "boom".toList
  normalize := fun _ => []
  imgSrcs := fun _ => []
  img := ⟨fun _ => .exc [], fun _ => .error [], fun _ => []⟩
  nowStr := []
  dateYmd := []
  timeHm := []

/-- Witness for C8 at a concrete failing environment and a non-empty prior
store. -/
theorem C8_fetch_failure_witness :
    processTarget c8Env [("n.json".toList, c10Snap)] "n".toList
        "http://x".toList =
      (.fetchFailed, [("n.json".toList, c10Snap)], []) :=
  (C8_fetch_failure c8Env [("n.json".toList, c10Snap)] "n".toList
    "http://x".toList [] (by decide) (fun k hk => rfl)).1

/-- C9: `main` wraps the diff generation in no `try`/`except`, so a raise
in the Differ/Highlighter on a changed target propagates: the cycle
produces no write at all (the updated snapshot is lost) and the whole run
aborts, leaving every remaining target unprocessed.  This contradicts the
spec's required degradation to "changed, but diff artifact unavailable". -/
theorem C9_highlighter_raise_aborts_run (env : Env)
    (hl : List Char → List Char → Except (List Char) (List Char))
    (store : Store) (name url : List Char)
    (rest : List (List Char × List Char)) (old : Snapshot) (page e : List Char)
    (hurl : urlOk url = true)
    (hfetch : (getPageContent (env.attempts url)).1 = some page)
    (hold : storeLookup store (storageKey name) = some old)
    (hdiff : old.textForDiff ≠ (cycleSnapshot env name url page).textForDiff)
    (hraise : hl old.htmlSource page = .error e) :
    processTargetE env hl store name url = .error e ∧
    runTargetsE env hl ((name, url) :: rest) store = .error e := by
  have h1 : processTargetE env hl store name url = .error e := by
    unfold processTargetE
    rw [hurl]
    simp only [not_true, Bool.true_eq_false, if_false]
    rw [hfetch]
    simp only [hold]
    rw [if_pos hdiff, hraise]
  refine ⟨h1, ?_⟩
  rw [runTargetsE, h1]

/-- Prior snapshot of the C9 witness scenario. -/
def c9Old : Snapshot :=
  ⟨"n".toList, "http://x".toList, [], "Q".toList, "OLD".toList, []⟩

/-- Environment of the C9 witness scenario: the fetch succeeds and the
normalised text differs from the prior snapshot's. -/
def c9Env : Env where
  attempts := fun _ _ => .ok "P".toList
  normalize := fun _ => "NEW".toList
  imgSrcs := fun _ => []
  img := ⟨fun _ => .exc [], fun _ => .error [], fun _ => []⟩
  nowStr := []
  dateYmd := []
  timeHm := []

/-- Witness for C9: with a raising highlighter, the two-target run aborts
on the first target; the second target is never processed and no snapshot
is saved. -/
theorem C9_highlighter_raise_witness :
    runTargetsE c9Env (fun _ _ => .error "boom".toList)
        [("n".toList, "http://x".toList), ("m".toList, "http://y".toList)]
        [("n.json".toList, c9Old)] = .error "boom".toList :=
  (C9_highlighter_raise_aborts_run c9Env (fun _ _ => .error "boom".toList)
    [("n.json".toList, c9Old)] "n".toList "http://x".toList
    [("m".toList, "http://y".toList)] c9Old "P".toList "boom".toList
    (by decide) rfl rfl (by decide) rfl).2

mutual
theorem textStrings_eraseAttrs :
    ∀ d : HNodes, textStrings (eraseAttrs d) = textStrings d
  | .nil => rfl
  | .cons n rest => by
    rw [eraseAttrs, textStrings, textStrings,
      textStrings1_eraseAttrs1 n, textStrings_eraseAttrs rest]

theorem textStrings1_eraseAttrs1 :
    ∀ n : HNode, textStrings1 (eraseAttrs1 n) = textStrings1 n
  | .text s => rfl
  | .elem t a c => by
    rw [eraseAttrs1, textStrings1, textStrings1, textStrings_eraseAttrs c]
end

mutual
theorem remove_eraseAttrs :
    ∀ d : HNodes,
      removeUnnecessaryTags (eraseAttrs d) =
        eraseAttrs (removeUnnecessaryTags d)
  | .nil => rfl
  | .cons n rest => by
    rw [eraseAttrs, removeUnnecessaryTags, removeUnnecessaryTags,
      remove_eraseAttrs rest, append1_eraseAttrs n]

theorem append1_eraseAttrs :
    ∀ (n : HNode) (d : HNodes),
      HNodes.append1? (eraseAttrs1 n) (eraseAttrs d) =
        eraseAttrs (HNodes.append1? n d)
  | .text s, d => rfl
  | .elem t a c, d => by
    rw [eraseAttrs1, HNodes.append1?, HNodes.append1?]
    split_ifs with ht
    · rfl
    · rw [eraseAttrs, eraseAttrs1, remove_eraseAttrs c]
end

/-- C4 (amended): the Normalizer never looks at attributes, so two parses
that agree after erasing every attribute list produce identical
`comparable_text`.  (It does not collapse whitespace — see the
counterexample.) -/
theorem C4_attribute_invariance (d1 d2 : HNodes)
    (h : eraseAttrs d1 = eraseAttrs d2) :
    normalizeMarkup d1 = normalizeMarkup d2 := by
  have key : ∀ d, normalizeMarkup (eraseAttrs d) = normalizeMarkup d := by
    intro d
    unfold normalizeMarkup getTextNl
    rw [remove_eraseAttrs, textStrings_eraseAttrs]
  rw [← key d1, h, key d2]

/-- Parse of `<p>a  b</p>` (two spaces). -/
def c4WsA : HNodes :=
  .cons (.elem "p".toList [] (.cons (.text "a  b".toList) .nil)) .nil

/-- Parse of `<p>a b</p>` (one space). -/
def c4WsB : HNodes :=
  .cons (.elem "p".toList [] (.cons (.text "a b".toList) .nil)) .nil

/-- Counterexample to C4 as stated: two markups rendering the same visible
text and differing only in whitespace get *different* `comparable_text`
(the Normalizer does not collapse whitespace; only the Differ's
comparison keys do, as the second conjunct certifies using the program's
own whitespace collapser). -/
theorem C4_whitespace_counterexample :
    normalizeMarkup c4WsA ≠ normalizeMarkup c4WsB ∧
    pyStrip (collapseSpaces (normalizeMarkup c4WsA)) =
      pyStrip (collapseSpaces (normalizeMarkup c4WsB)) :=
  ⟨by decide, by decide⟩

/-- Parse with an attribute. -/
def c4AttrA : HNodes :=
  .cons (.elem "p".toList [("class".toList, "x".toList)]
    (.cons (.text "t".toList) .nil)) .nil

/-- The same parse without the attribute. -/
def c4AttrB : HNodes :=
  .cons (.elem "p".toList [] (.cons (.text "t".toList) .nil)) .nil

/-- Witness for the amended C4 at an attribute-only difference. -/
theorem C4_attribute_invariance_witness :
    eraseAttrs c4AttrA = eraseAttrs c4AttrB ∧
    normalizeMarkup c4AttrA = normalizeMarkup c4AttrB :=
  ⟨rfl, C4_attribute_invariance c4AttrA c4AttrB rfl⟩

/-- C1: with a prior snapshot present and a successful fetch — equal
comparable text gives state `UNCHANGED`, no diff artifact, and the new
snapshot persisted anyway; different comparable text gives state
`CHANGED`, with exactly one diff artifact, produced by the highlighter
from (prior raw markup, new raw markup) and written *before* the snapshot
save (the write list is ordered).  For prior comparable text `"A\nB"`
against new `"A\nC"` the artifact wraps line `C` — and not line `A` — in
the `#faa` "modified" marker. -/
theorem C1_state_machine (env : Env) (store : Store)
    (name url page : List Char) (old : Snapshot)
    (hurl : urlOk url = true)
    (hfetch : (getPageContent (env.attempts url)).1 = some page)
    (hold : storeLookup store (storageKey name) = some old) :
    (old.textForDiff = (cycleSnapshot env name url page).textForDiff →
      processTarget env store name url =
        (.unchanged,
         storeSave store (storageKey name) (cycleSnapshot env name url page),
         [.writeSnap (storageKey name) (cycleSnapshot env name url page)])) ∧
    (old.textForDiff ≠ (cycleSnapshot env name url page).textForDiff →
      processTarget env store name url =
        (.changed,
         storeSave store (storageKey name) (cycleSnapshot env name url page),
         [.writeDiff (diffFileName env name)
            (wrapDiffShell name (highlightHtmlDiff old.htmlSource page)),
          .writeSnap (storageKey name) (cycleSnapshot env name url page)])) ∧
    highlightHtmlDiff "A\nB".toList "A\nC".toList =
      "<meta charset='UTF-8'>\nA\n".toList ++ replOpen ++ "C".toList ++
        spanClose ∧
    (replOpen ++ "C".toList ++ spanClose) <:+:
      highlightHtmlDiff "A\nB".toList "A\nC".toList ∧
    ¬ (replOpen ++ "A".toList) <:+:
      highlightHtmlDiff "A\nB".toList "A\nC".toList := by
  refine ⟨?_, ?_, by decide, by decide, by decide⟩
  · intro heq
    unfold processTarget
    rw [hurl]
    simp only [not_true, Bool.true_eq_false, if_false]
    rw [hfetch]
    simp only [hold]
    rw [if_neg (by simp [heq])]
  · intro hne
    unfold processTarget
    rw [hurl]
    simp only [not_true, Bool.true_eq_false, if_false]
    rw [hfetch]
    simp only [hold]
    rw [if_pos hne]

/-- Environment of the C1 witness: the fetch returns raw markup `"A\nC"`,
and the page text extraction is the identity on these tag-free pages. -/
def c1Env : Env where
  attempts := fun _ _ => .ok "A\nC".toList
  normalize := fun sPage => sPage
  imgSrcs := fun _ => []
  img := ⟨fun _ => .exc [], fun _ => .error [], fun _ => []⟩
  nowStr := "T".toList
  dateYmd := "D".toList
  timeHm := "M".toList

/-- Prior snapshot of the C1 witness, with comparable text `"A\nB"`. -/
def c1Old : Snapshot :=
  ⟨"t".toList, "http://x".toList, "T0".toList, "A\nB".toList,
    "A\nB".toList, []⟩

/-- Witness for C1: at the concrete changed scenario the cycle reports
`CHANGED` and writes the diff artifact then the snapshot. -/
theorem C1_state_machine_witness :
    c1Old.textForDiff ≠
        (cycleSnapshot c1Env "t".toList "http://x".toList
          "A\nC".toList).textForDiff ∧
    processTarget c1Env [("t.json".toList, c1Old)] "t".toList
        "http://x".toList =
      (.changed,
       storeSave [("t.json".toList, c1Old)] (storageKey "t".toList)
         (cycleSnapshot c1Env "t".toList "http://x".toList "A\nC".toList),
       [.writeDiff (diffFileName c1Env "t".toList)
          (wrapDiffShell "t".toList
            (highlightHtmlDiff c1Old.htmlSource "A\nC".toList)),
        .writeSnap (storageKey "t".toList)
          (cycleSnapshot c1Env "t".toList "http://x".toList
            "A\nC".toList)]) :=
  ⟨by decide,
   (C1_state_machine c1Env [("t.json".toList, c1Old)] "t".toList
      "http://x".toList "A\nC".toList c1Old (by decide) rfl rfl).2.1
     (by decide)⟩

/-- Old line sequence of the C5 counterexample: `"y"` followed by 200
copies of `"x"`. -/
def c5Old : List (List Char) := "y".toList :: List.replicate 200 "x".toList

/-- New line sequence of the C5 counterexample: 200 copies of `"x"`. -/
def c5New : List (List Char) := List.replicate 200 "x".toList

/-- Counterexample to C5 as stated: on these inputs the Differ emits a
single `replace` covering all 401 lines (autojunk purges the popular
`"x"` from `b2j` and the tail extension stalls on the leading `"y"`),
while a valid alignment covering only 1 line (delete `"y"`) exists — so
the opcode sequence is not a minimal-edit-distance alignment. -/
theorem C5_not_minimal_counterexample :
    Difflib.getOpcodes c5Old c5New =
      [⟨.replace, 0, 201, 0, 200⟩] ∧
    Difflib.editCoverage (Difflib.getOpcodes c5Old c5New) = 401 ∧
    Difflib.isAlignment c5Old c5New
      [⟨.delete, 0, 1, 0, 0⟩, ⟨.equal, 1, 201, 0, 200⟩] = true ∧
    Difflib.editCoverage
      [(⟨.delete, 0, 1, 0, 0⟩ : Difflib.Opcode), ⟨.equal, 1, 201, 0, 200⟩]
        = 1 :=
  ⟨by decide, by decide, by decide, by decide⟩

/-- C5 (amended): the Differ's opcode sequence is a *sound* alignment —
every `equal` opcode spans equal-length ranges whose lines agree pairwise
— but it is not guaranteed to be a minimal-edit-distance alignment (see
the counterexample). -/
theorem C5_equal_opcodes_sound {α : Type} [DecidableEq α] (a b : List α)
    (op : Difflib.Opcode) (hop : op ∈ Difflib.getOpcodes a b)
    (htag : op.tag = .equal) :
    op.i2 - op.i1 = op.j2 - op.j1 ∧
    ∀ t, op.i1 + t < op.i2 → a[op.i1 + t]? = b[op.j1 + t]? := by
  obtain ⟨blk, hmem, heq⟩ := Difflib.opcodesLoop_equal _ 0 0 op hop htag
  subst heq
  have htrue := Difflib.getMatchingBlocks_true a b blk hmem
  dsimp only
  refine ⟨by omega, ?_⟩
  intro t ht
  have hm := htrue t (by omega)
  exact Difflib.matchAt_eq hm

/-- Witness for the amended C5 at a concrete equal opcode. -/
theorem C5_equal_opcodes_sound_witness :
    ((⟨.equal, 0, 1, 0, 1⟩ : Difflib.Opcode) ∈
      Difflib.getOpcodes ["A".toList, "B".toList] ["A".toList, "C".toList]) ∧
    ∀ t, 0 + t < 1 →
      ["A".toList, "B".toList][0 + t]? = ["A".toList, "C".toList][0 + t]? :=
  ⟨by decide,
   (C5_equal_opcodes_sound ["A".toList, "B".toList]
      ["A".toList, "C".toList] ⟨.equal, 0, 1, 0, 1⟩ (by decide) rfl).2⟩

/-- C6: for any inputs, the Differ's opcode ranges exactly partition
`[0, len(old))` on the old side and `[0, len(new))` on the new side —
contiguous, in order, non-overlapping, and leaving no index uncovered. -/
theorem C6_opcodes_partition {α : Type} [DecidableEq α] (a b : List α) :
    Difflib.tiles 0
      ((Difflib.getOpcodes a b).map fun o => (o.i1, o.i2)) a.length ∧
    Difflib.tiles 0
      ((Difflib.getOpcodes a b).map fun o => (o.j1, o.j2)) b.length := by
  have hchain := Difflib.getMatchingBlocks_chain a b
  have := Difflib.opcodesLoop_tiles (Difflib.getMatchingBlocks a b) 0 0 hchain
  unfold Difflib.getOpcodes
  unfold Difflib.getMatchingBlocks at this ⊢
  rwa [Difflib.cursorEndA_concat, Difflib.cursorEndB_concat] at this

namespace Difflib

variable {α : Type} [DecidableEq α]

/-- Identity instance `align(X, X)`: position `t` of `X` is in range and
not purged by autojunk, so the matcher can see the self-match `(t, t)`. -/
def selfOK (X : List α) (t : Nat) : Bool :=
  match X[t]? with
  | some x => !isPopular X x
  | none => false

/-- Length of the maximal diagonal run of self-matching positions ending
at `t` inclusive. -/
def diagRun (X : List α) : Nat → Nat
  | 0 => if selfOK X 0 then 1 else 0
  | t + 1 => if selfOK X (t + 1) then diagRun X t + 1 else 0

/-- Largest diagonal run ending strictly below row `c`. -/
def diagBest (X : List α) : Nat → Nat
  | 0 => 0
  | c + 1 => max (diagBest X c) (diagRun X c)

/-- `diagRun` at the last processed row; `0` before any row. -/
def prevRun (X : List α) : Nat → Nat
  | 0 => 0
  | c + 1 => diagRun X c

theorem matchAt_self {X : List α} {t : Nat} (h : t < X.length) :
    matchAt X X t t = true := by
  unfold matchAt
  rw [List.getElem?_eq_getElem h]
  simp

theorem mem_b2j_lt {X : List α} {x : α} {j : Nat} (h : j ∈ b2j X x) :
    j < X.length :=
  (List.getElem?_eq_some_iff.mp (mem_b2j h)).1

theorem diagRun_le (X : List α) (t : Nat) : diagRun X t ≤ t + 1 := by
  induction t with
  | zero => rw [diagRun]; split_ifs <;> omega
  | succ t ih => rw [diagRun]; split_ifs <;> omega

theorem diagRun_succ {X : List α} {t : Nat} (h : selfOK X (t + 1) = true) :
    diagRun X (t + 1) = diagRun X t + 1 := by
  rw [diagRun, if_pos h]

theorem diagRun_eq_zero {X : List α} {t : Nat} (h : selfOK X t = false) :
    diagRun X t = 0 := by
  cases t with
  | zero => rw [diagRun, if_neg (by simp [h])]
  | succ t => rw [diagRun, if_neg (by simp [h])]

theorem diagRun_le_diagBest (X : List α) {t c : Nat} (h : t < c) :
    diagRun X t ≤ diagBest X c := by
  induction c with
  | zero => exact absurd h (Nat.not_lt_zero t)
  | succ c ih =>
    rw [diagBest]
    rcases Nat.lt_succ_iff_lt_or_eq.mp h with h1 | h1
    · exact le_trans (ih h1) (Nat.le_max_left _ _)
    · rw [h1]; exact Nat.le_max_right _ _

/-- Value bound for an inner-loop entry `k` of the identity run at a
self-matching column `j` of a self-matching row `c`: the run through
`(c, j)` is no longer than the diagonal runs through column `j` and
through row `c`. -/
theorem innerK_le {X : List α} {c : Nat} {old : Nat → Nat}
    (hO1 : ∀ j, old j ≤ diagRun X j) (hO2 : ∀ j, old j ≤ prevRun X c)
    (hsc : selfOK X c = true) {j : Nat} (hsj : selfOK X j = true) :
    (if j = 0 then 0 else old (j - 1)) + 1 ≤ diagRun X j ∧
      (if j = 0 then 0 else old (j - 1)) + 1 ≤ diagRun X c := by
  constructor
  · cases j with
    | zero => rw [if_pos rfl, diagRun, if_pos hsj]
    | succ j1 =>
      rw [if_neg (Nat.succ_ne_zero j1), diagRun_succ hsj]
      have h1 : old (j1 + 1 - 1) ≤ diagRun X j1 := hO1 j1
      omega
  · cases c with
    | zero =>
      have hd : diagRun X 0 = 1 := by rw [diagRun, if_pos hsc]
      cases j with
      | zero => rw [if_pos rfl]; omega
      | succ j1 =>
        rw [if_neg (Nat.succ_ne_zero j1)]
        have h2 : old (j1 + 1 - 1) ≤ prevRun X 0 := hO2 j1
        have hz : prevRun X 0 = 0 := rfl
        omega
    | succ c1 =>
      have hd : diagRun X (c1 + 1) = diagRun X c1 + 1 := diagRun_succ hsc
      have hz : prevRun X (c1 + 1) = diagRun X c1 := rfl
      cases j with
      | zero => rw [if_pos rfl]; omega
      | succ j1 =>
        rw [if_neg (Nat.succ_ne_zero j1)]
        have h2 : old (j1 + 1 - 1) ≤ prevRun X (c1 + 1) := hO2 j1
        omega

/-- The inner-loop entry at the diagonal column of row `c` of the
identity run is exactly the diagonal run ending at `c`. -/
theorem innerK_diag {X : List α} {c : Nat} {old : Nat → Nat}
    (hO2 : ∀ j, old j ≤ prevRun X c) (hOL : prevRun X c ≤ old (c - 1))
    (hsc : selfOK X c = true) :
    (if c = 0 then 0 else old (c - 1)) + 1 = diagRun X c := by
  cases c with
  | zero => rw [if_pos rfl, diagRun, if_pos hsc]
  | succ c1 =>
    rw [if_neg (Nat.succ_ne_zero c1), diagRun_succ hsc]
    have h2 : old (c1 + 1 - 1) ≤ prevRun X (c1 + 1) := hO2 c1
    have h3 : prevRun X (c1 + 1) ≤ old (c1 + 1 - 1) := hOL
    have hz : prevRun X (c1 + 1) = diagRun X c1 := rfl
    omega

end Difflib

namespace Difflib

variable {α : Type} [DecidableEq α]

/-- Invariant of the identity run `flmCore X X 0 n 0 n` after `c` outer
rows: the best block lies on the diagonal and fits below `n`, it
dominates every diagonal run completed so far, and the row values are
bounded by the diagonal runs through their column and through the last
processed row, whose own diagonal entry is exact. -/
def IdInv (X : List α) (c : Nat) (st : FlmState) : Prop :=
  st.besti = st.bestj ∧
  st.besti + st.bestsize ≤ X.length ∧
  diagBest X c ≤ st.bestsize ∧
  (∀ j, st.j2len j ≤ diagRun X j) ∧
  (∀ j, st.j2len j ≤ prevRun X c) ∧
  prevRun X c ≤ st.j2len (c - 1)

/-- Mid-row invariant of row `c` before its diagonal column is reached:
the best block is untouched and the new row is bounded by the diagonal
runs. -/
def RowInvA (X : List α) (c : Nat) (st0 t : FlmState) : Prop :=
  t.besti = st0.besti ∧ t.bestj = st0.bestj ∧ t.bestsize = st0.bestsize ∧
  (∀ j, t.j2len j ≤ diagRun X j) ∧ (∀ j, t.j2len j ≤ diagRun X c)

/-- Mid-row invariant of row `c` from its diagonal column on: the best
block is diagonal, fits below `n`, and dominates `diagRun X c`, whose
value the new row stores at column `c`. -/
def RowInvB (X : List α) (c : Nat) (t : FlmState) : Prop :=
  t.besti = t.bestj ∧ t.besti + t.bestsize ≤ X.length ∧
  diagBest X c ≤ t.bestsize ∧ diagRun X c ≤ t.bestsize ∧
  (∀ j, t.j2len j ≤ diagRun X j) ∧ (∀ j, t.j2len j ≤ diagRun X c) ∧
  diagRun X c ≤ t.j2len c

/-- A pre-diagonal inner step of the identity run cannot improve the
best block. -/
theorem rowA_step {X : List α} {c : Nat} {st0 : FlmState}
    (hO1 : ∀ j, st0.j2len j ≤ diagRun X j)
    (hO2 : ∀ j, st0.j2len j ≤ prevRun X c)
    (hB : diagBest X c ≤ st0.bestsize)
    (hsc : selfOK X c = true)
    {j : Nat} (hj : j < c) (hsj : selfOK X j = true)
    {t : FlmState} (h : RowInvA X c st0 t) :
    RowInvA X c st0 (innerStep c st0.j2len t j) := by
  obtain ⟨e1, e2, e3, u1, u2⟩ := h
  unfold innerStep
  set k := (if j = 0 then 0 else st0.j2len (j - 1)) + 1 with hk
  have hkb : k ≤ diagRun X j ∧ k ≤ diagRun X c := by
    rw [hk]; exact innerK_le hO1 hO2 hsc hsj
  have hnf : ¬ (t.bestsize < k) := by
    have h1 : diagRun X j ≤ diagBest X c := diagRun_le_diagBest X hj
    omega
  rw [if_neg hnf]
  refine ⟨e1, e2, e3, ?_, ?_⟩
  · intro x
    show (if x = j then k else t.j2len x) ≤ diagRun X x
    by_cases hx : x = j
    · rw [if_pos hx, hx]; exact hkb.1
    · rw [if_neg hx]; exact u1 x
  · intro x
    show (if x = j then k else t.j2len x) ≤ diagRun X c
    by_cases hx : x = j
    · rw [if_pos hx]; exact hkb.2
    · rw [if_neg hx]; exact u2 x

/-- The diagonal inner step of row `c`: the entry is exactly
`diagRun X c`, and any best update it triggers stays on the diagonal. -/
theorem rowDiag_step {X : List α} {c : Nat} {st0 : FlmState}
    (hO2 : ∀ j, st0.j2len j ≤ prevRun X c)
    (hOL : prevRun X c ≤ st0.j2len (c - 1))
    (hd : st0.besti = st0.bestj)
    (hn : st0.besti + st0.bestsize ≤ X.length)
    (hB : diagBest X c ≤ st0.bestsize)
    (hc : c < X.length)
    (hsc : selfOK X c = true)
    {t : FlmState} (h : RowInvA X c st0 t) :
    RowInvB X c (innerStep c st0.j2len t c) := by
  obtain ⟨e1, e2, e3, u1, u2⟩ := h
  unfold innerStep
  set k := (if c = 0 then 0 else st0.j2len (c - 1)) + 1 with hk
  have hkd : k = diagRun X c := by
    rw [hk]; exact innerK_diag hO2 hOL hsc
  have hkc : k ≤ c + 1 := by rw [hkd]; exact diagRun_le X c
  by_cases hf : t.bestsize < k
  · rw [if_pos hf]
    refine ⟨rfl, ?_, ?_, ?_, ?_, ?_, ?_⟩
    · show c + 1 - k + k ≤ X.length
      omega
    · show diagBest X c ≤ k
      omega
    · show diagRun X c ≤ k
      omega
    · intro x
      show (if x = c then k else t.j2len x) ≤ diagRun X x
      by_cases hx : x = c
      · rw [if_pos hx, hx]; exact le_of_eq hkd
      · rw [if_neg hx]; exact u1 x
    · intro x
      show (if x = c then k else t.j2len x) ≤ diagRun X c
      by_cases hx : x = c
      · rw [if_pos hx]; exact le_of_eq hkd
      · rw [if_neg hx]; exact u2 x
    · show diagRun X c ≤ (if c = c then k else t.j2len c)
      rw [if_pos rfl]
      exact le_of_eq hkd.symm
  · rw [if_neg hf]
    refine ⟨?_, ?_, ?_, ?_, ?_, ?_, ?_⟩
    · show t.besti = t.bestj
      rw [e1, e2]; exact hd
    · show t.besti + t.bestsize ≤ X.length
      omega
    · show diagBest X c ≤ t.bestsize
      omega
    · show diagRun X c ≤ t.bestsize
      omega
    · intro x
      show (if x = c then k else t.j2len x) ≤ diagRun X x
      by_cases hx : x = c
      · rw [if_pos hx, hx]; exact le_of_eq hkd
      · rw [if_neg hx]; exact u1 x
    · intro x
      show (if x = c then k else t.j2len x) ≤ diagRun X c
      by_cases hx : x = c
      · rw [if_pos hx]; exact le_of_eq hkd
      · rw [if_neg hx]; exact u2 x
    · show diagRun X c ≤ (if c = c then k else t.j2len c)
      rw [if_pos rfl]
      omega

/-- A post-diagonal inner step of the identity run cannot improve the
best block. -/
theorem rowB_step {X : List α} {c : Nat} {st0 : FlmState}
    (hO1 : ∀ j, st0.j2len j ≤ diagRun X j)
    (hO2 : ∀ j, st0.j2len j ≤ prevRun X c)
    (hsc : selfOK X c = true)
    {j : Nat} (hj : c < j) (hsj : selfOK X j = true)
    {t : FlmState} (h : RowInvB X c t) :
    RowInvB X c (innerStep c st0.j2len t j) := by
  obtain ⟨e1, e2, e3, e4, u1, u2, u3⟩ := h
  unfold innerStep
  set k := (if j = 0 then 0 else st0.j2len (j - 1)) + 1 with hk
  have hkb : k ≤ diagRun X j ∧ k ≤ diagRun X c := by
    rw [hk]; exact innerK_le hO1 hO2 hsc hsj
  have hnf : ¬ (t.bestsize < k) := by omega
  rw [if_neg hnf]
  refine ⟨e1, e2, e3, e4, ?_, ?_, ?_⟩
  · intro x
    show (if x = j then k else t.j2len x) ≤ diagRun X x
    by_cases hx : x = j
    · rw [if_pos hx, hx]; exact hkb.1
    · rw [if_neg hx]; exact u1 x
  · intro x
    show (if x = j then k else t.j2len x) ≤ diagRun X c
    by_cases hx : x = j
    · rw [if_pos hx]; exact hkb.2
    · rw [if_neg hx]; exact u2 x
  · show diagRun X c ≤ (if c = j then k else t.j2len c)
    rw [if_neg (Nat.ne_of_lt hj)]
    exact u3

/-- A row whose diagonal run is empty (out of range or popular element)
resets the row values and keeps the best block. -/
theorem IdInv_zeroRow {X : List α} {c : Nat} {st : FlmState}
    (h : IdInv X c st) (hdz : diagRun X c = 0) :
    IdInv X (c + 1) { st with j2len := fun _ => 0 } := by
  obtain ⟨h1, h2, h3, h4, h5, h6⟩ := h
  refine ⟨h1, h2, ?_, ?_, ?_, ?_⟩
  · show diagBest X (c + 1) ≤ st.bestsize
    have he : diagBest X (c + 1) = max (diagBest X c) (diagRun X c) := rfl
    rw [he, hdz, Nat.max_zero]
    exact h3
  · intro j; exact Nat.zero_le _
  · intro j; exact Nat.zero_le _
  · show prevRun X (c + 1) ≤ 0
    have hz : prevRun X (c + 1) = diagRun X c := rfl
    omega

end Difflib

namespace Difflib

variable {α : Type} [DecidableEq α]

/-- One outer row of the identity run preserves the diagonal invariant:
the row is split at its diagonal column, the pre- and post-diagonal
steps never fire, and the diagonal step stays on the diagonal. -/
theorem outerStep_self (X : List α) (c : Nat) {st : FlmState}
    (h : IdInv X c st) : IdInv X (c + 1) (outerStep X X 0 X.length st c) := by
  unfold outerStep
  cases hxc : (X[c]?) with
  | none =>
    have hs : selfOK X c = false := by unfold selfOK; rw [hxc]
    exact IdInv_zeroRow h (diagRun_eq_zero hs)
  | some xc =>
    dsimp only
    have hcn : c < X.length := (List.getElem?_eq_some_iff.mp hxc).1
    by_cases hp : isPopular X xc = true
    · have hb : b2j X xc = [] := by unfold b2j; rw [if_pos hp]
      rw [hb]
      have hs : selfOK X c = false := by unfold selfOK; rw [hxc]; simp [hp]
      exact IdInv_zeroRow h (diagRun_eq_zero hs)
    · have hp2 : isPopular X xc = false := by
        cases hh : isPopular X xc
        · rfl
        · exact absurd hh hp
      have hsc : selfOK X c = true := by unfold selfOK; rw [hxc]; simp [hp2]
      obtain ⟨h1, h2, h3, h4, h5, h6⟩ := h
      have hfull : ((b2j X xc).filter fun j => decide (0 ≤ j ∧ j < X.length)) =
          b2j X xc := by
        refine List.filter_eq_self.mpr ?_
        intro j hj
        have hlt := mem_b2j_lt hj
        simp [hlt]
      rw [hfull]
      have hb : b2j X xc =
          (List.range X.length).filter fun j => decide (X[j]? = some xc) := by
        unfold b2j
        rw [if_neg hp]
      rw [hb]
      have hsplit :
          ((List.range X.length).filter fun j => decide (X[j]? = some xc)) =
            ((List.range' 0 c).filter fun j => decide (X[j]? = some xc)) ++
              c :: ((List.range' (c + 1) (X.length - c - 1)).filter
                fun j => decide (X[j]? = some xc)) := by
        have e1 : List.range' 0 c ++ List.range' c (X.length - c) =
            List.range' 0 X.length := by
          have hh := List.range'_append_1 0 c (X.length - c)
          rw [Nat.zero_add] at hh
          rw [hh, Nat.sub_add_cancel (Nat.le_of_lt hcn)]
        rw [List.range_eq_range', ← e1, List.filter_append]
        congr 1
        have e2 : List.range' c (X.length - c) =
            c :: List.range' (c + 1) (X.length - c - 1) := by
          set m := X.length - c - 1 with hm
          have e3 : X.length - c = m + 1 := by omega
          rw [e3]
          rfl
        rw [e2, List.filter_cons_of_pos (by simp [hxc])]
      rw [hsplit, List.foldl_append, List.foldl_cons]
      have hAmem : ∀ j ∈ ((List.range' 0 c).filter
          fun j => decide (X[j]? = some xc)), j < c ∧ selfOK X j = true := by
        intro j hj
        obtain ⟨hjr, hjP⟩ := List.mem_filter.mp hj
        have hjc : j < c := by
          have := List.mem_range'_1.mp hjr
          omega
        have hXj : X[j]? = some xc := by simpa using hjP
        exact ⟨hjc, by unfold selfOK; rw [hXj]; simp [hp2]⟩
      have hBmem : ∀ j ∈ ((List.range' (c + 1) (X.length - c - 1)).filter
          fun j => decide (X[j]? = some xc)), c < j ∧ selfOK X j = true := by
        intro j hj
        obtain ⟨hjr, hjP⟩ := List.mem_filter.mp hj
        have hjc : c < j := by
          have := List.mem_range'_1.mp hjr
          omega
        have hXj : X[j]? = some xc := by simpa using hjP
        exact ⟨hjc, by unfold selfOK; rw [hXj]; simp [hp2]⟩
      have hA : RowInvA X c st
          (((List.range' 0 c).filter fun j => decide (X[j]? = some xc)).foldl
            (innerStep c st.j2len) { st with j2len := fun _ => 0 }) := by
        refine foldl_inv _ _ _ ?_ _ ?_
        · intro s x hx hs
          exact rowA_step h4 h5 h3 hsc (hAmem x hx).1 (hAmem x hx).2 hs
        · exact ⟨rfl, rfl, rfl, fun j => Nat.zero_le _, fun j => Nat.zero_le _⟩
      have hD := rowDiag_step h5 h6 h1 h2 h3 hcn hsc hA
      have hB2 := foldl_inv (innerStep c st.j2len)
        ((List.range' (c + 1) (X.length - c - 1)).filter
          fun j => decide (X[j]? = some xc)) (RowInvB X c)
        (fun s x hx hs =>
          rowB_step h4 h5 hsc (hBmem x hx).1 (hBmem x hx).2 hs) _ hD
      obtain ⟨b1, b2, b3, b4, v1, v2, v3⟩ := hB2
      refine ⟨b1, b2, ?_, v1, ?_, ?_⟩
      · have he : diagBest X (c + 1) = max (diagBest X c) (diagRun X c) := rfl
        rw [he]
        exact Nat.max_le.mpr ⟨b3, b4⟩
      · intro j
        have hz : prevRun X (c + 1) = diagRun X c := rfl
        rw [hz]
        exact v2 j
      · have hz : prevRun X (c + 1) = diagRun X c := rfl
        rw [hz]
        exact v3

/-- The dynamic-programming phase of the identity run satisfies the
diagonal invariant at every row, in particular at the end. -/
theorem flmCore_self (X : List α) :
    IdInv X X.length (flmCore X X 0 X.length 0 X.length) := by
  unfold flmCore
  rw [Nat.sub_zero]
  refine foldl_range'_inv _ 0 (IdInv X) ?_ _ _ ?_
  · intro cnt s hs
    rw [Nat.zero_add]
    exact outerStep_self X cnt hs
  · refine ⟨rfl, ?_, ?_, ?_, ?_, ?_⟩
    · exact Nat.zero_le _
    · show diagBest X 0 ≤ 0
      exact Nat.le_refl 0
    · intro j; exact Nat.zero_le _
    · intro j; exact Nat.zero_le _
    · show prevRun X 0 ≤ 0
      exact Nat.le_refl 0

end Difflib

namespace Difflib

variable {α : Type} [DecidableEq α]

/-- On the identity instance the head-extension loop drags a diagonal
best block all the way down to `0`, absorbing its whole fuel. -/
theorem extendHeadGo_self (X : List α) :
    ∀ (p s : Nat), p + s ≤ X.length →
      extendHeadGo X X 0 0 p p p s = (0, 0, s + p) := by
  intro p
  induction p with
  | zero => intro s h; rfl
  | succ p ih =>
    intro s h
    rw [extendHeadGo]
    have hg : 0 < p + 1 ∧ 0 < p + 1 ∧
        matchAt X X (p + 1 - 1) (p + 1 - 1) = true :=
      ⟨Nat.succ_pos p, Nat.succ_pos p, matchAt_self (by omega)⟩
    rw [if_pos hg]
    simp only [Nat.add_sub_cancel]
    rw [ih (s + 1) (by omega)]
    rw [show s + 1 + p = s + (p + 1) from by omega]

/-- On the identity instance the tail-extension loop grows a best block
anchored at `(0, 0)` to the full length, absorbing its whole fuel. -/
theorem extendTailGo_self (X : List α) :
    ∀ (f s : Nat), s + f ≤ X.length →
      extendTailGo X X X.length X.length 0 0 f s = s + f := by
  intro f
  induction f with
  | zero => intro s h; rfl
  | succ f ih =>
    intro s h
    rw [extendTailGo]
    have hg : 0 + s < X.length ∧ 0 + s < X.length ∧
        matchAt X X (0 + s) (0 + s) = true := by
      refine ⟨by omega, by omega, ?_⟩
      rw [Nat.zero_add]
      exact matchAt_self (by omega)
    rw [if_pos hg]
    rw [ih (s + 1) (by omega)]
    omega

/-- `find_longest_match` over the full identity window returns the whole
diagonal: the DP phase ends with a diagonal best block, which the two
extension loops stretch to `(0, 0, n)`. -/
theorem flm_self (X : List α) :
    findLongestMatch X X 0 X.length 0 X.length = (0, 0, X.length) := by
  have hinv := flmCore_self X
  simp only [findLongestMatch]
  set M := flmCore X X 0 X.length 0 X.length with hM
  obtain ⟨h1, h2, h3, h4, h5, h6⟩ := hinv
  have hh : extendHead X X 0 0 M.besti M.bestj M.bestsize =
      (0, 0, M.bestsize + M.besti) := by
    unfold extendHead
    rw [← h1, Nat.sub_zero]
    exact extendHeadGo_self X M.besti M.bestsize h2
  rw [hh]
  dsimp only
  have ht : extendTail X X X.length X.length 0 0 (M.bestsize + M.besti) =
      X.length := by
    unfold extendTail
    rw [extendTailGo_self X (X.length - (0 + (M.bestsize + M.besti)))
      (M.bestsize + M.besti) (by omega)]
    omega
  rw [ht]

/-- The queue loop of the identity run: the full region yields the whole
diagonal at once and queues nothing. -/
theorem gmbGo_self (X : List α) (h1 : 1 ≤ X.length) :
    gmbGo X X (2 * X.length + 1) [(0, X.length, 0, X.length)] [] =
      [(0, 0, X.length)] := by
  rw [gmbGo, flm_self X]
  dsimp only
  rw [if_pos (show X.length ≠ 0 by omega)]
  rw [if_neg (show ¬((0:Nat) < 0 ∧ (0:Nat) < 0) by omega)]
  rw [if_neg (show ¬(0 + X.length < X.length ∧ 0 + X.length < X.length)
    by omega)]
  simp only [List.append_nil, List.nil_append]
  rw [gmbGo]

/-- `get_matching_blocks` of the identity run: the whole diagonal plus
the terminator. -/
theorem getMatchingBlocks_self (X : List α) (h1 : 1 ≤ X.length) :
    getMatchingBlocks X X = [(0, 0, X.length), (X.length, X.length, 0)] := by
  unfold getMatchingBlocks
  rw [gmbGo_self X h1]
  rw [show sortBlocks [((0 : Nat), (0 : Nat), X.length)] =
    [((0 : Nat), (0 : Nat), X.length)] from rfl]
  rw [collapseBlocks]
  rw [if_pos (show (0:Nat) + 0 = 0 ∧ (0:Nat) + 0 = 0 by omega)]
  rw [collapseBlocks]
  rw [if_pos (show (0:Nat) + X.length ≠ 0 by omega)]
  rw [show (0:Nat) + X.length = X.length from Nat.zero_add _]
  rfl

/-- The opcode loop emits nothing for the terminator block when the
cursors already sit at its corner. -/
theorem opcodesLoop_last (m : Nat) :
    opcodesLoop m m [(m, m, 0)] = ([] : List Opcode) := by
  simp only [opcodesLoop]
  rw [if_neg (show ¬(m < m ∧ m < m) by omega)]
  rw [if_neg (show ¬(m < m) by omega)]
  rw [if_neg (show ¬(m < m) by omega)]
  rw [if_neg (show ¬((0:Nat) ≠ 0) by omega)]
  simp [opcodesLoop]

/-- `get_opcodes` of the identity run: one `equal` opcode spanning both
sides in full. -/
theorem getOpcodes_self (X : List α) (h1 : 1 ≤ X.length) :
    getOpcodes X X = [⟨Tag.equal, 0, X.length, 0, X.length⟩] := by
  unfold getOpcodes
  rw [getMatchingBlocks_self X h1]
  rw [opcodesLoop]
  rw [if_neg (show ¬((0:Nat) < 0 ∧ (0:Nat) < 0) by omega)]
  rw [if_neg (show ¬((0:Nat) < 0) by omega)]
  rw [if_neg (show ¬((0:Nat) < 0) by omega)]
  rw [if_pos (show X.length ≠ 0 by omega)]
  rw [show (0:Nat) + X.length = X.length from Nat.zero_add _]
  rw [opcodesLoop_last X.length]
  simp

end Difflib

/-- C3: diff identity law — aligning a non-empty line sequence `X` with
itself (the matcher run over the per-line comparison keys, as
`highlight_html_diff` sets it up) yields exactly one opcode, of kind
`equal`, whose old and new ranges both span `[0, len X)`. -/
theorem C3_identity_law (X : List (List Char)) (hne : X ≠ []) :
    Difflib.getOpcodes (X.map extractReadableText)
        (X.map extractReadableText) =
      [⟨Difflib.Tag.equal, 0, X.length, 0, X.length⟩] := by
  have hmap : (X.map extractReadableText).length = X.length := by simp
  have hpos : 1 ≤ (X.map extractReadableText).length := by
    rw [hmap]
    exact List.length_pos.mpr hne
  rw [Difflib.getOpcodes_self (X.map extractReadableText) hpos, hmap]

/-- Witness for C3 at the concrete two-line sequence `["A", "B"]`. -/
theorem C3_identity_law_witness :
    ((["A".toList, "B".toList] : List (List Char)) ≠ []) ∧
      Difflib.getOpcodes
          (["A".toList, "B".toList].map extractReadableText)
          (["A".toList, "B".toList].map extractReadableText) =
        [⟨Difflib.Tag.equal, 0, 2, 0, 2⟩] :=
  ⟨by decide, C3_identity_law ["A".toList, "B".toList] (by decide)⟩

end Scrape
